import Mathlib

/-!
Verification of the PlotEx core (plotex.py): state algebra, action algebra and
the maximal-state search engine.  States are Python dicts from quality keys to
values; we embed them as association lists kept sorted by key, so that Lean
equality of the representation coincides with Python dict equality for
canonical states.  Machine integers of the source are arbitrary-precision in
Python, hence `Int` here.  Python `frozenset` values become `Finset String`.
Partial functions (actions, the fuel-limited search loops) return `Option`.
-/

namespace Plotex

/-- The four quality value domains of the schema (source: `infer_typelist`). -/
inductive QType where
  | tbool
  | tint
  | tstr
  | tset
deriving DecidableEq, Repr

/-- A quality value: Python bool / int / str / frozenset-of-str. -/
inductive Value where
  | vb : Bool → Value
  | vi : Int → Value
  | vs : String → Value
  | vset : Finset String → Value
deriving DecidableEq

/-- Python truthiness of a value (`not val` tests in the source). -/
def Value.truthy : Value → Bool
  | .vb b => b
  | .vi n => decide (n ≠ 0)
  | .vs s => decide (s ≠ "")
  | .vset s => decide (s ≠ ∅)

/-- Does the value carry the declared type (`type(val) is bool` etc.)? -/
def Value.isBool : Value → Bool
  | .vb _ => true
  | _ => false

/-- Python `ival < val` on values.  In the source this comparison is only ever
reached with two ints (well-typed states); other cases are unreachable there
and return `false` here. -/
def Value.ltv : Value → Value → Bool
  | .vi a, .vi b => decide (a < b)
  | _, _ => false

/-- Python `ival.issuperset(frozenset(val))`; only set values reach it. -/
def Value.issup : Value → Value → Bool
  | .vset a, .vset b => decide (b ⊆ a)
  | _, _ => false

/-- Python `ival.issubset(frozenset(val))`; only set values reach it. -/
def Value.issub : Value → Value → Bool
  | .vset a, .vset b => decide (a ⊆ b)
  | _, _ => false

/-- The quality schema: the scenario's `_typemap`, a dict key -> type. -/
abbrev Schema := List (String × QType)

/-- Python `key.startswith('_')`: does the first character equal `'_'`?
(Spelled out on the character list so that the kernel can evaluate it.) -/
def startsUnderscore (k : String) : Bool :=
  match k.data with
  | [] => false
  | c :: _ => c = '_'

/-- Sense of a key (source line 49: `senses[key] = (not key.startswith('_'))`).
`true` is positive sense, `false` negative sense. -/
def sense (k : String) : Bool := !(startsUnderscore k)

/-- Lookup in the schema (`scenario._typemap[key]`, `none` for a KeyError). -/
def lookupType : Schema → String → Option QType
  | [], _ => none
  | (k, t) :: rest, key => if k = key then some t else lookupType rest key

/-- A state's quality dictionary: association list, canonical states are kept
sorted by key so that list equality is dict equality. -/
abbrev Dict := List (String × Value)

/-- Strict character comparison on code points. -/
def charLtB (a b : Char) : Bool := decide (a < b)

/-- Lexicographic comparison of character lists. -/
def strLtB : List Char → List Char → Bool
  | [], [] => false
  | [], _ :: _ => true
  | _ :: _, [] => false
  | a :: as, b :: bs => if a = b then strLtB as bs else charLtB a b

/-- The total key order used for the sorted dict representation. -/
def keyLt (a b : String) : Bool := strLtB a.data b.data

/-- Python `dic.get(key)`. -/
def dget : Dict → String → Option Value
  | [], _ => none
  | (k, v) :: rest, key => if k = key then some v else dget rest key

/-- Python `dic[key] = val`, inserting at the sorted position (the sorted
representative of the unordered dict update). -/
def dinsert : Dict → String → Value → Dict
  | [], key, val => [(key, val)]
  | (k, v) :: rest, key, val =>
    if k = key then (key, val) :: rest
    else if keyLt key k then (key, val) :: (k, v) :: rest
    else (k, v) :: dinsert rest key val

/-- Python `dic.pop(key)`. -/
def dremove (d : Dict) (key : String) : Dict :=
  d.filter (fun kv => kv.1 ≠ key)

/-- `State.canonize`: falsy values are deleted from the mapping.  (The
tuple/list-to-frozenset freezing of the source is the identity here because
set values are already `Finset String`.) -/
def canonize (d : Dict) : Dict :=
  d.filter (fun kv => kv.2.truthy)

/-- Truthiness of `dic.get(key)` (`not ival` in the source: `None` is falsy). -/
def otruthy : Option Value → Bool
  | none => false
  | some v => v.truthy

/-- `State.atleast(key, val)`: is the key quality `val` or better (source
lines 639-659).  The final `else` branch of the source compares bool and str
values by equality. -/
def atleast (sc : Schema) (st : Dict) (key : String) (val : Value) : Bool :=
  if val.truthy = false then true
  else
    match dget st key with
    | none => false
    | some ival =>
      match lookupType sc key with
      | some .tint => !(Value.ltv ival val)
      | some .tset => Value.issup ival val
      | _ => decide (ival = val)

/-- `State.atmost(key, val)`: is the key quality `val` or worse (source
lines 661-682). -/
def atmost (sc : Schema) (st : Dict) (key : String) (val : Value) : Bool :=
  let ival := dget st key
  if val.truthy = false ∧ otruthy ival = false then true
  else if val.truthy = false then false
  else
    match ival with
    | none => true
    | some iv =>
      match lookupType sc key with
      | some .tint => !(Value.ltv val iv)
      | some .tset => Value.issub iv val
      | _ => decide (iv = val)

/-- `State.contains(other)` (source lines 623-637): every positive-sense key
of `other` is matched at least by `self`, and every negative-sense key of
`self` is matched at least by `other`. -/
def contains (sc : Schema) (self other : Dict) : Bool :=
  other.all (fun kv => if sense kv.1 then atleast sc self kv.1 kv.2 else true) &&
  self.all (fun kv => if sense kv.1 then true else atleast sc other kv.1 kv.2)

/-- `A <= B` (source `__le__`: `other.contains(self)`). -/
def leD (sc : Schema) (a b : Dict) : Bool := contains sc b a

/-- `A >= B` (source `__ge__`: `self.contains(other)`). -/
def geD (sc : Schema) (a b : Dict) : Bool := contains sc a b

/-- `A > B` (source `__gt__`: `(self != other) and self.contains(other)`). -/
def gtD (sc : Schema) (a b : Dict) : Bool := decide (a ≠ b) && contains sc a b

/-- `A < B` (source `__lt__`: `(self != other) and other.contains(self)`). -/
def ltD (sc : Schema) (a b : Dict) : Bool := decide (a ≠ b) && contains sc b a

/-- Per-key meet of two present values, positive sense branch of `__and__`:
bool and / int min / set intersection / equal strings (differing strings set
nothing).  Value patterns that mismatch the declared type are unreachable for
well-typed states. -/
def posMeet : QType → Value → Value → Option Value
  | .tbool, .vb x, .vb y => some (.vb (x && y))
  | .tint, .vi x, .vi y => some (.vi (min x y))
  | .tset, .vset x, .vset y => some (.vset (x ∩ y))
  | .tstr, .vs x, .vs y => if x = y then some (.vs x) else none
  | _, _, _ => none

/-- Negative sense branch of `__and__` when both values are present: bool or /
int max / set union / equal strings. -/
def negMeet : QType → Value → Value → Option Value
  | .tbool, .vb x, .vb y => some (.vb (x || y))
  | .tint, .vi x, .vi y => some (.vi (max x y))
  | .tset, .vset x, .vset y => some (.vset (x ∪ y))
  | .tstr, .vs x, .vs y => if x = y then some (.vs x) else none
  | _, _, _ => none

/-- One key of `State.__and__` (source lines 543-581): positive sense needs
both sides present, negative sense copies the single present side. -/
def meetVal (t : QType) (s : Bool) : Option Value → Option Value → Option Value
  | some a, some b => if s then posMeet t a b else negMeet t a b
  | none, ob => if s then none else ob
  | oa, none => if s then none else oa

/-- `set(self.dic.keys()).union(other.dic.keys())` as a duplicate-free list. -/
def meetKeys (a b : Dict) : List String :=
  ((a.map Prod.fst) ++ (b.map Prod.fst)).dedup

/-- The dictionary built by the loop of `State.__and__` before the final
`State(**dic)` canonicalization. -/
def rawMeet (sc : Schema) (a b : Dict) : Dict :=
  (meetKeys a b).filterMap (fun k =>
    match lookupType sc k with
    | some t => (meetVal t (sense k) (dget a k) (dget b k)).map (fun v => (k, v))
    | none => none)

/-- `A & B` (source `__and__`), the greatest-common-factor state. -/
def meetD (sc : Schema) (a b : Dict) : Dict :=
  canonize (rawMeet sc a b)

/-- Duplicate-free keys, the defining property of a Python dict. -/
def nodupKeys : List (String × Value) → Bool
  | [] => true
  | (k, _) :: rest => rest.all (fun kv => decide (kv.1 ≠ k)) && nodupKeys rest

/-- Duplicate-free keys of a schema. -/
def nodupSchema : Schema → Bool
  | [] => true
  | (k, _) :: rest => rest.all (fun kt => decide (kt.1 ≠ k)) && nodupSchema rest

/-- Does a value inhabit the declared domain? -/
def typeMatch : QType → Value → Bool
  | .tbool, .vb _ => true
  | .tint, .vi _ => true
  | .tstr, .vs _ => true
  | .tset, .vset _ => true
  | _, _ => false

/-- Well-formed state over a scenario: duplicate-free canonical dict whose
keys all belong to the schema with values of the declared types.  Every state
built by the source inside a scenario satisfies this. -/
def wf (sc : Schema) (st : Dict) : Bool :=
  nodupKeys st &&
  st.all (fun kv =>
    kv.2.truthy &&
    match lookupType sc kv.1 with
    | some t => typeMatch t kv.2
    | none => false)

/-- Python `str(val)` as used by `State.addquality` for string keys.  Faithful
for bool/int/str inputs; the (never used) frozenset rendering is abstracted. -/
def strOfValue : Value → String
  | .vb b => if b then "True" else "False"
  | .vi n => toString n
  | .vs s => s
  | .vset _ => "frozenset"

/-- Failure modes of `State.addquality`: a KeyError for a key outside the
schema, and a Python TypeError from a coercion. -/
inductive AddErr where
  | keyError
  | typeError
deriving DecidableEq, Repr

/-- `State.addquality(key, val)` (source lines 604-621).  The bool branch is
Python `bool(val)` (truthiness); the int branch is `int(val)` (faithful for
int and bool arguments; string parsing is not modelled, which is immaterial
to the claims); the str branch is `str(val)`.  The set branch of the source
executes `dic.get(key, set()).union(set[val])`, and `set[val]` subscripts the
builtin `set` type, which raises a TypeError unconditionally. -/
def addquality (sc : Schema) (st : Dict) (key : String) (val : Value) :
    Except AddErr Dict :=
  match lookupType sc key with
  | none => .error .keyError
  | some .tbool => .ok (canonize (dinsert st key (.vb val.truthy)))
  | some .tint =>
    match val with
    | .vi n => .ok (canonize (dinsert st key (.vi n)))
    | .vb b => .ok (canonize (dinsert st key (.vi (if b then 1 else 0))))
    | _ => .error .typeError
  | some .tstr => .ok (canonize (dinsert st key (.vs (strOfValue val))))
  | some .tset => .error .typeError

/-- The equivalence-class hints (source lines 816-819). -/
inductive EquivT where
  | unknown
  | same
  | improve
  | loss
deriving DecidableEq, Repr

/-- The hint computed by `Set.__init__` (source lines 850-867): IMPROVE when
every value is a boolean that is truthy on a positive-sense key or falsy on a
negative-sense key; LOSS for any other all-boolean mapping; the class default
UNKNOWN when some value is not a boolean.  (The source breaks out of its
counting loop at the first non-boolean; the count is then unused, so the
uninterrupted count used here is observationally identical.) -/
def setEquiv (params : List (String × Value)) : EquivT :=
  if params.all (fun kv => kv.2.isBool) then
    if params.countP
        (fun kv => (!(startsUnderscore kv.1) && kv.2.truthy) ||
          (startsUnderscore kv.1 && !kv.2.truthy)) = params.length
    then .improve else .loss
  else .unknown

/-- The built-in action forms needed by the claims (a fragment of the source's
`Action` subclasses, with the same parameters and behavior). -/
inductive ActionT where
  | aset (params : List (String × Value))
  | ahas (params : List (String × Value))
  | ahasany (params : List (String × Value))
  | alose (keys : List String)
  | aincrement (key : String) (limit : Option Int)
  | achain (acts : List ActionT)

/-- `Chain.__init__`'s hint from the hints of the subactions: LOSS if any
subaction is LOSS, IMPROVE if every subaction is SAME or IMPROVE, else the
class default UNKNOWN (source lines 1059-1073). -/
def chainEquiv (es : List EquivT) : EquivT :=
  if 0 < es.countP (fun e => decide (e = .loss)) then .loss
  else if es.countP (fun e => decide (e = .same) || decide (e = .improve)) = es.length
  then .improve
  else .unknown

mutual

/-- The `equivtype` attribute of each action form, as set by its
constructor (Set: `setEquiv`; Has/HasAny: class attribute SAME; Lose: LOSS if
any key is positive-sense else IMPROVE; Increment: IMPROVE on a positive-sense
key else LOSS; Chain: `chainEquiv`). -/
def equivtype : ActionT → EquivT
  | .aset params => setEquiv params
  | .ahas _ => .same
  | .ahasany _ => .same
  | .alose keys =>
    if 0 < keys.countP (fun k => !(startsUnderscore k)) then .loss else .improve
  | .aincrement key _ => if !(startsUnderscore key) then .improve else .loss
  | .achain acts => chainEquiv (equivList acts)

/-- `equivtype` mapped over a subaction list. -/
def equivList : List ActionT → List EquivT
  | [] => []
  | a :: rest => equivtype a :: equivList rest

end

mutual

/-- `Action.__call__` for each form (`none` is the source's `None`, action not
applicable):
Set overwrites the state with its mapping (lines 868-872);
Has filters on `atleast`/`atmost` of every pair by sense (lines 889-897);
HasAny filters on some pair passing (lines 904-912);
Lose requires all keys present and removes them (lines 926-933);
Increment blocks at the limit, else adds 1 (lines 984-990);
Chain applies the subactions in order, short-circuiting on failure
(lines 1076-1081).  `new_state`'s `State(**dic)` canonicalizes. -/
def acall (sc : Schema) : ActionT → Dict → Option Dict
  | .aset params, st =>
    some (canonize (params.foldl (fun d kv => dinsert d kv.1 kv.2) st))
  | .ahas params, st =>
    if params.all (fun kv =>
        if sense kv.1 then atleast sc st kv.1 kv.2 else atmost sc st kv.1 kv.2)
    then some st else none
  | .ahasany params, st =>
    if params.any (fun kv =>
        if sense kv.1 then atleast sc st kv.1 kv.2 else atmost sc st kv.1 kv.2)
    then some st else none
  | .alose keys, st =>
    if keys.all (fun k => (dget st k).isSome)
    then some (canonize (keys.foldl (fun d k => dremove d k) st)) else none
  | .aincrement key limit, st =>
    let val : Int := match dget st key with | some (.vi n) => n | _ => 0
    match limit with
    | some l => if l ≤ val then none
                else some (canonize (dinsert st key (.vi (val + 1))))
    | none => some (canonize (dinsert st key (.vi (val + 1))))
  | .achain acts, st => acallList sc acts st

/-- The body of `Chain.__call__`: fold the subactions over the state. -/
def acallList (sc : Schema) : List ActionT → Dict → Option Dict
  | [], st => some st
  | a :: rest, st =>
    match acall sc a st with
    | none => none
    | some st2 => acallList sc rest st2

end

/-- `GraphNode` (source lines 411-422) plus the `maxing_actions` attribute
that `find_maximal_state` installs (absent until assigned in the source;
defaulted to `[]` here, and always assigned before the algorithm reads it). -/
structure GNode where
  maximal : Option Dict
  is_maximal : Bool
  children : List (List ActionT × Dict)
  parents : List (List ActionT × Dict)
  history : List ActionT
  ancestors : Finset Dict
  maxing : List ActionT

/-- A fresh `GraphNode(state)`. -/
def GNode.empty : GNode :=
  { maximal := none, is_maximal := false, children := [], parents := [],
    history := [], ancestors := ∅, maxing := [] }

/-- The mutable part of a `Graph`: the node table `states`, the insertion
order `statels`, the set `seenmaxes` and the result list `maxls`. -/
structure GraphSt where
  states : List (Dict × GNode)
  statels : List Dict
  seenmaxes : Finset Dict
  maxls : List Dict

/-- A `Graph` before any run. -/
def emptyGraph : GraphSt :=
  { states := [], statels := [], seenmaxes := ∅, maxls := [] }

/-- `self.states.get(state)`. -/
def tget : List (Dict × GNode) → Dict → Option GNode
  | [], _ => none
  | (d, n) :: rest, key => if d = key then some n else tget rest key

/-- `self.states[state] = node`. -/
def tset : List (Dict × GNode) → Dict → GNode → List (Dict × GNode)
  | [], key, node => [(key, node)]
  | (d, n) :: rest, key, node =>
    if d = key then (key, node) :: rest else (d, n) :: tset rest key node

/-- Mutate the node stored under a key (attribute assignment on the aliased
`GraphNode` object). -/
def tmod : List (Dict × GNode) → Dict → (GNode → GNode) → List (Dict × GNode)
  | [], _, _ => []
  | (d, n) :: rest, key, f =>
    if d = key then (d, f n) :: rest else (d, n) :: tmod rest key f

/-- The improvement-probing loop body of `find_maximal_state` (source lines
246-274 up to the bookkeeping): the first action in declared order whose
result is applicable, different from the state and strictly greater. -/
def firstImprove (sc : Schema) : List ActionT → Dict → Option (ActionT × Dict)
  | [], _ => none
  | a :: rest, st =>
    match acall sc a st with
    | none => firstImprove sc rest st
    | some ns =>
      if ns = st then firstImprove sc rest st
      else if gtD sc ns st then some (a, ns)
      else firstImprove sc rest st

/-- The terminal bookkeeping of `find_maximal_state` (source lines 276-285):
annotate every state of the chain with the found maximal and the suffix of
the action chain that leads there. -/
def finAssign (maxst : Dict) (actchain : List ActionT) :
    Nat → List Dict → List (Dict × GNode) → List (Dict × GNode)
  | _, [], tbl => tbl
  | pos, s :: rest, tbl =>
    finAssign maxst actchain (pos + 1) rest
      (tmod tbl s (fun n =>
        { n with maximal := some maxst, maxing := actchain.drop pos }))

/-- The splice bookkeeping of `find_maximal_state` (source lines 260-271):
the walk ran into a known state `gotstate`; every chain state inherits its
stored maximal and maxing chain.  The source reads the aliased `gotnode`
attributes afresh on every loop iteration, hence the fresh `tget` here. -/
def splAssign (gotstate : Dict) (actchain : List ActionT) :
    Nat → List Dict → List (Dict × GNode) → List (Dict × GNode)
  | _, [], tbl => tbl
  | pos, s :: rest, tbl =>
    let gm := match tget tbl gotstate with | some gn => gn.maximal | none => none
    let gma := match tget tbl gotstate with | some gn => gn.maxing | none => []
    splAssign gotstate actchain (pos + 1) rest
      (tmod tbl s (fun n =>
        { n with maximal := gm, maxing := actchain.drop pos ++ gma }))

/-- The `while True` loop of `find_maximal_state` (source lines 240-285),
with explicit fuel: `none` means the loop has not returned within `fuel`
iterations (the source would still be running). -/
def fmLoop (sc : Schema) (improve : List ActionT) :
    Nat → GraphSt → Dict → List Dict → List ActionT → Option (GraphSt × Option Dict)
  | 0, _, _, _, _ => none
  | fuel + 1, g, state, statechain, actchain =>
    let g2 : GraphSt :=
      { g with states := tset g.states state GNode.empty,
               statels := g.statels ++ [state] }
    let statechain2 := statechain ++ [state]
    match firstImprove sc improve state with
    | none =>
      let tbl := finAssign state actchain 0 statechain2 g2.states
      let tbl2 := tmod tbl state (fun n => { n with is_maximal := true })
      some ({ g2 with states := tbl2 }, some state)
    | some (a, ns) =>
      let actchain2 := actchain ++ [a]
      match tget g2.states ns with
      | some _ =>
        let tbl := splAssign ns actchain2 0 statechain2 g2.states
        let res := match tget tbl ns with | some gn => gn.maximal | none => none
        some ({ g2 with states := tbl }, res)
      | none => fmLoop sc improve fuel g2 ns statechain2 actchain2

/-- `Graph.find_maximal_state` (source lines 229-285).  Returns the updated
graph and the maximal state; the inner `Option` mirrors the stored
`node.maximal` attribute (`None` until assigned). -/
def findMaximal (sc : Schema) (improve : List ActionT) (fuel : Nat)
    (g : GraphSt) (state : Dict) : Option (GraphSt × Option Dict) :=
  match tget g.states state with
  | some node => some (g, node.maximal)
  | none => fmLoop sc improve fuel g state [] []

/-- The start-state loop of `Graph.run` (source lines 184-192): compute each
start state's maximal, enqueue unseen ones and install their history. -/
def runSetup (sc : Schema) (improve : List ActionT) (fm : Nat) :
    List Dict → GraphSt → List Dict → Option (GraphSt × List Dict)
  | [], g, queue => some (g, queue)
  | st :: rest, g, queue =>
    match findMaximal sc improve fm g st with
    | none => none
    | some (_, none) => none
    | some (g1, some m) =>
      if m ∈ queue then runSetup sc improve fm rest g1 queue
      else
        let hist := match tget g1.states st with | some sn => sn.maxing | none => []
        let g2 : GraphSt :=
          { g1 with seenmaxes := insert m g1.seenmaxes,
                    states := tmod g1.states m (fun n => { n with history := hist }) }
        runSetup sc improve fm rest g2 (queue ++ [m])

/-- The change-action loop of one `Graph.run` iteration (source lines
203-227): apply each change action to the popped maximal, maximize the
result, reject no-progress and ancestor results, record edges, enqueue new
maximals.  `none` mirrors a crash (`states[None]`) or exhausted inner fuel. -/
def runActions (sc : Schema) (improve : List ActionT) (fm : Nat)
    (oldstate : Dict) :
    List ActionT → GraphSt → List Dict → Option (GraphSt × List Dict)
  | [], g, queue => some (g, queue)
  | action :: rest, g, queue =>
    match acall sc action oldstate with
    | none => runActions sc improve fm oldstate rest g queue
    | some newstate =>
      match findMaximal sc improve fm g newstate with
      | none => none
      | some (_, none) => none
      | some (g1, some maxstate) =>
        if maxstate = oldstate then runActions sc improve fm oldstate rest g1 queue
        else
          match tget g1.states oldstate with
          | none => none
          | some oldnode =>
            if maxstate ∈ oldnode.ancestors then
              runActions sc improve fm oldstate rest g1 queue
            else
              let aclist := action ::
                (match tget g1.states newstate with | some nn => nn.maxing | none => [])
              let seen := maxstate ∈ g1.seenmaxes
              let queue2 := if seen then queue else queue ++ [maxstate]
              let g2 : GraphSt :=
                { g1 with
                  seenmaxes := if seen then g1.seenmaxes else insert maxstate g1.seenmaxes,
                  states := tmod g1.states maxstate (fun n =>
                    { n with
                      history := if seen then n.history else oldnode.history ++ aclist,
                      ancestors := insert oldstate (n.ancestors ∪ oldnode.ancestors) }) }
              let g3 : GraphSt :=
                { g2 with states := tmod g2.states oldstate (fun n =>
                    { n with children := n.children ++ [(aclist, maxstate)] }) }
              let g4 : GraphSt :=
                { g3 with states := tmod g3.states maxstate (fun n =>
                    { n with parents := n.parents ++ [(aclist, oldstate)] }) }
              runActions sc improve fm oldstate rest g4 queue2

/-- The `while (newstates)` loop of `Graph.run` (source lines 194-227) with
explicit fuel for the outer iteration count.  The generation-limit guard
breaks (with a warning in the source) before popping. -/
def runLoop (sc : Schema) (improve change : List ActionT) (limit fm : Nat) :
    Nat → GraphSt → List Dict → Option GraphSt
  | _, g, [] => some g
  | 0, _, _ :: _ => none
  | fuel + 1, g, oldstate :: queueRest =>
    if limit ≤ g.seenmaxes.card then some g
    else
      let g1 : GraphSt := { g with maxls := g.maxls ++ [oldstate] }
      match runActions sc improve fm oldstate change g1 queueRest with
      | none => none
      | some (g2, queue2) => runLoop sc improve change limit fm fuel g2 queue2

/-- `Graph.run(actions, limit, noopt)` (source lines 174-227): partition the
actions by hint unless `noopt`, maximize the start states, then explore.
`fm` bounds each `find_maximal_state` walk and `fuel` the outer loop; `none`
means the source would still be running (or crash on an unassigned maximal). -/
def run (sc : Schema) (starts : List Dict) (actions : List ActionT)
    (limit : Nat) (noopt : Bool) (fm fuel : Nat) : Option GraphSt :=
  let improveactions :=
    if noopt then actions
    else actions.filter (fun a => decide (equivtype a ≠ .loss))
  let changeactions :=
    if noopt then actions
    else actions.filter (fun a =>
      decide (equivtype a = .loss) || decide (equivtype a = .unknown))
  match runSetup sc improveactions fm starts emptyGraph [] with
  | none => none
  | some (g, queue) => runLoop sc improveactions changeactions limit fm fuel g queue

/-- The falsy value of each type (how the spec reads an absent key). -/
def defaultVal : QType → Value
  | .tbool => .vb false
  | .tint => .vi 0
  | .tstr => .vs ""
  | .tset => .vset ∅

/-- Modelled from the spec (section 3.2): the value of key `k` in a state,
an absent key read as the falsy value of its type. -/
def readVal (t : QType) (st : Dict) (k : String) : Value :=
  match dget st k with
  | some v => v
  | none => defaultVal t

/-- Boolean content of a value (exact on well-typed boolean values). -/
def asB : Value → Bool
  | .vb b => b
  | _ => false

/-- Integer content of a value (exact on well-typed int values). -/
def asI : Value → Int
  | .vi n => n
  | _ => 0

/-- String content of a value (exact on well-typed string values). -/
def asS : Value → String
  | .vs s => s
  | _ => ""

/-- Set content of a value (exact on well-typed set values). -/
def asSet : Value → Finset String
  | .vset s => s
  | _ => ∅

/-- Modelled from the spec: the `at_least(a,b)` column of the per-type table
of section 3.2 — bool `b → a`, int `a ≥ b`, string `a == b` or `b` empty,
set `a ⊇ b`. -/
def tabAtLeast (t : QType) (a b : Value) : Bool :=
  match t with
  | .tbool => !asB b || asB a
  | .tint => decide (asI b ≤ asI a)
  | .tstr => decide (asS a = asS b) || decide (asS b = "")
  | .tset => decide (asSet b ⊆ asSet a)

/-- Modelled from the spec: the `at_most(a,b)` column of the per-type table
of section 3.2 as printed — bool `¬b ∨ ¬a`, int `a ≤ b`, string `a == b` or
`b` empty, set `a ⊆ b`. -/
def tabAtMost (t : QType) (a b : Value) : Bool :=
  match t with
  | .tbool => !asB b || !asB a
  | .tint => decide (asI a ≤ asI b)
  | .tstr => decide (asS a = asS b) || decide (asS b = "")
  | .tset => decide (asSet a ⊆ asSet b)

/-- Modelled from the spec: the containment definition of section 3.2 exactly
as the claim states it — `A ≤ B` iff for every schema key `k`,
`B.at_least(k, A[k])` when `sense(k)` is positive and `A.at_most(k, B[k])`
when it is negative, with absent keys read as falsy values. -/
def specLeClaim (sc : Schema) (a b : Dict) : Bool :=
  sc.all (fun kt =>
    if sense kt.1 then tabAtLeast kt.2 (readVal kt.2 b kt.1) (readVal kt.2 a kt.1)
    else tabAtMost kt.2 (readVal kt.2 a kt.1) (readVal kt.2 b kt.1))

/-- The `at_least` relation the implementation actually realizes: the table's
`at_least` column with an absence-aware int cell — an absent (zero) target is
always satisfied, and a nonzero target requires a present (nonzero) value at
least as large. -/
def tabAtLeastAbs (t : QType) (a b : Value) : Bool :=
  match t with
  | .tbool => !asB b || asB a
  | .tint => decide (asI b = 0) || (decide (asI a ≠ 0) && decide (asI b ≤ asI a))
  | .tstr => decide (asS a = asS b) || decide (asS b = "")
  | .tset => decide (asSet b ⊆ asSet a)

/-- The containment order actually implemented: for every schema key `k`,
positive sense requires `at_least(B[k], A[k])` and negative sense requires
`at_least(A[k], B[k])` (the operand order of the spec's gloss, not the
`at_most` formula), with the absence-aware int cell. -/
def specLeAmended (sc : Schema) (a b : Dict) : Bool :=
  sc.all (fun kt =>
    if sense kt.1 then tabAtLeastAbs kt.2 (readVal kt.2 b kt.1) (readVal kt.2 a kt.1)
    else tabAtLeastAbs kt.2 (readVal kt.2 a kt.1) (readVal kt.2 b kt.1))

/-- Does the graph hold an edge from a maximal state into one of its own
recorded ancestors?  (The negation of the spec's post-run invariant.) -/
def edgeIntoAncestor (g : GraphSt) : Bool :=
  g.states.any (fun dn =>
    dn.2.children.any (fun ct => decide (ct.2 ∈ dn.2.ancestors)))

/-- Does every recorded edge leave its source (no self-loops)? -/
def selfEdgeFree (g : GraphSt) : Bool :=
  g.states.all (fun dn => dn.2.children.all (fun ct => decide (ct.2 ≠ dn.1)))

/-- Table-level form of `selfEdgeFree`: no stored node records an edge back
to its own state. -/
def tOK (t : List (Dict × GNode)) : Prop :=
  ∀ dn ∈ t, ∀ ct ∈ dn.2.children, ct.2 ≠ dn.1

/-- A one-key schema with a negative-sense boolean quality. -/
def scNegBool : Schema := [("_b", QType.tbool)]

/-- The state carrying that negative quality. -/
def stNegBool : Dict := [("_b", Value.vb true)]

/-- A one-key schema with a negative-sense string quality. -/
def scNegStr : Schema := [("_s", QType.tstr)]

/-- A one-key schema with a positive boolean, as in `FindSword = Set(sword=True)`. -/
def scSword : Schema := [("sword", QType.tbool)]

/-- The state `{sword: True}`. -/
def stSword : Dict := [("sword", Value.vb true)]

/-- A scenario for exercising the generation limit: one boolean quality. -/
def scFood : Schema := [("food", QType.tbool)]

/-- The start state `State(food=True)` of the source's TestScenario. -/
def stFood : Dict := [("food", Value.vb true)]

/-- Four boolean location markers for the ancestor-edge scenario. -/
def scMoves : Schema :=
  [("m", QType.tbool), ("m2", QType.tbool), ("p", QType.tbool), ("s0", QType.tbool)]

/-- Marker state `{s0}`. -/
def stS0 : Dict := [("s0", Value.vb true)]

/-- Marker state `{m}`. -/
def stM : Dict := [("m", Value.vb true)]

/-- Marker state `{m2}`. -/
def stM2 : Dict := [("m2", Value.vb true)]

/-- Marker state `{p}`. -/
def stP : Dict := [("p", Value.vb true)]

/-- `Chain(Has(src=True), Lose(src), Set(dst=True))`: a LOSS-hinted action
moving the single marker from `src` to `dst`. -/
def mkMove (src dst : String) : ActionT :=
  .achain [.ahas [(src, Value.vb true)], .alose [src], .aset [(dst, Value.vb true)]]

/-- Moves realizing the diamond `s0 -> {m2, m}`, `m2 -> p`, `m -> m2`,
`p -> m` on maximal states. -/
def actsMoves : List ActionT :=
  [mkMove "s0" "m2", mkMove "s0" "m", mkMove "m2" "p", mkMove "m" "m2",
   mkMove "p" "m"]

/-- A one-key schema with a positive int quality. -/
def scInc : Schema := [("n", QType.tint)]

/-- `Increment('n')` with no limit. -/
def incAct : ActionT := .aincrement "n" none

/-- The state `{n: 1}`. -/
def stN1 : Dict := [("n", Value.vi 1)]

/-- `find_maximal_state` never returns on `{n: 1}` with the unlimited
increment as the only improvement action: the fuel-indexed loop fails for
every fuel. -/
def incrementDiverges : Prop :=
  ∀ fuel : Nat, fmLoop scInc [incAct] fuel emptyGraph stN1 [] [] = none

/-- Looking up the freshly inserted key. -/
theorem dget_dinsert_self (d : Dict) (k : String) (v : Value) :
    dget (dinsert d k v) k = some v := by
  induction d with
  | nil => simp [dinsert, dget]
  | cons kv rest ih =>
    obtain ⟨k0, v0⟩ := kv
    unfold dinsert
    by_cases h : k0 = k
    · rw [if_pos h]
      simp [dget]
    · rw [if_neg h]
      by_cases h2 : keyLt k k0 = true
      · rw [if_pos h2]
        simp [dget]
      · rw [if_neg h2]
        unfold dget
        rw [if_neg h]
        exact ih

/-- Insertion leaves other keys alone. -/
theorem dget_dinsert_ne (d : Dict) (k k2 : String) (v : Value)
    (h : k ≠ k2) : dget (dinsert d k v) k2 = dget d k2 := by
  induction d with
  | nil => simp [dinsert, dget, h]
  | cons kv rest ih =>
    obtain ⟨k0, v0⟩ := kv
    unfold dinsert
    by_cases h0 : k0 = k
    · rw [if_pos h0]
      simp only [dget]
      rw [if_neg h, if_neg (show ¬k0 = k2 by rw [h0]; exact h)]
    · rw [if_neg h0]
      by_cases h2 : keyLt k k0 = true
      · rw [if_pos h2]
        simp only [dget]
        rw [if_neg h]
      · rw [if_neg h2]
        simp only [dget]
        by_cases h3 : k0 = k2
        · rw [if_pos h3, if_pos h3]
        · rw [if_neg h3, if_neg h3]
          exact ih

/-- A found binding is a member of the list. -/
theorem dget_mem (d : Dict) (k : String) (v : Value)
    (h : dget d k = some v) : (k, v) ∈ d := by
  induction d with
  | nil => exact absurd h (by simp [dget])
  | cons kv rest ih =>
    obtain ⟨k0, v0⟩ := kv
    unfold dget at h
    by_cases h0 : k0 = k
    · rw [if_pos h0] at h
      injection h with hv
      rw [← h0, ← hv]
      exact List.mem_cons_self _ _
    · rw [if_neg h0] at h
      exact List.mem_cons_of_mem _ (ih h)

/-- With duplicate-free keys, membership determines the lookup. -/
theorem mem_dget (d : Dict) (k : String) (v : Value)
    (hnd : nodupKeys d = true) (h : (k, v) ∈ d) : dget d k = some v := by
  induction d with
  | nil => exact absurd h (List.not_mem_nil _)
  | cons kv rest ih =>
    obtain ⟨k0, v0⟩ := kv
    unfold nodupKeys at hnd
    rw [Bool.and_eq_true] at hnd
    rcases List.mem_cons.mp h with h1 | h2
    · rw [Prod.mk.injEq] at h1
      unfold dget
      rw [if_pos h1.1.symm, h1.2]
    · unfold dget
      have hkne : k0 ≠ k := by
        have := List.all_eq_true.mp hnd.1 (k, v) h2
        simp only [decide_eq_true_eq] at this
        exact fun he => this he.symm
      rw [if_neg hkne]
      exact ih hnd.2 h2

/-- One step of canonicalization. -/
theorem canonize_cons (k0 : String) (v0 : Value) (rest : Dict) :
    canonize ((k0, v0) :: rest) =
      if v0.truthy = true then (k0, v0) :: canonize rest else canonize rest := by
  unfold canonize
  by_cases ht : v0.truthy = true
  · rw [if_pos ht, List.filter_cons_of_pos (by simpa using ht)]
  · rw [if_neg ht, List.filter_cons_of_neg (by simpa using ht)]

/-- A missing key stays missing after canonicalization. -/
theorem dget_canonize_none (d : Dict) (k : String)
    (h : dget d k = none) : dget (canonize d) k = none := by
  induction d with
  | nil => simp [canonize, dget]
  | cons kv rest ih =>
    obtain ⟨k0, v0⟩ := kv
    unfold dget at h
    by_cases h0 : k0 = k
    · rw [if_pos h0] at h
      exact absurd h (by simp)
    · rw [if_neg h0] at h
      rw [canonize_cons]
      by_cases ht : v0.truthy = true
      · rw [if_pos ht]
        simp only [dget]
        rw [if_neg h0]
        exact ih h
      · rw [if_neg ht]
        exact ih h

/-- Canonicalization keeps exactly the truthy bindings (for duplicate-free
dicts). -/
theorem dget_canonize (d : Dict) (k : String) (hnd : nodupKeys d = true) :
    dget (canonize d) k =
      (dget d k).bind (fun v => if v.truthy = true then some v else none) := by
  induction d with
  | nil => simp [canonize, dget]
  | cons kv rest ih =>
    obtain ⟨k0, v0⟩ := kv
    unfold nodupKeys at hnd
    rw [Bool.and_eq_true] at hnd
    rw [canonize_cons]
    by_cases h0 : k0 = k
    · by_cases ht : v0.truthy = true
      · rw [if_pos ht]
        simp only [dget]
        rw [if_pos h0, if_pos h0]
        simp [ht]
      · rw [if_neg ht]
        have hnone : dget rest k = none := by
          cases hr : dget rest k with
          | none => rfl
          | some v2 =>
            have hmem := dget_mem rest k v2 hr
            have := List.all_eq_true.mp hnd.1 (k, v2) hmem
            simp only [decide_eq_true_eq] at this
            exact absurd h0 (fun he => this he.symm)
        rw [dget_canonize_none rest k hnone]
        simp only [dget]
        rw [if_pos h0]
        simp [ht]
    · by_cases ht : v0.truthy = true
      · rw [if_pos ht]
        simp only [dget]
        rw [if_neg h0, if_neg h0]
        exact ih hnd.2
      · rw [if_neg ht]
        simp only [dget]
        rw [if_neg h0]
        exact ih hnd.2

/-- The key order is irreflexive. -/
theorem strLtB_irrefl (l : List Char) : strLtB l l = false := by
  induction l with
  | nil => rfl
  | cons a as ih => simp [strLtB, ih]

/-- The key order is transitive. -/
theorem strLtB_trans :
    ∀ {x y z : List Char}, strLtB x y = true → strLtB y z = true →
      strLtB x z = true := by
  intro x
  induction x with
  | nil =>
    intro y z h1 h2
    cases y with
    | nil => exact absurd h1 (by simp [strLtB])
    | cons b bs =>
      cases z with
      | nil => exact absurd h2 (by simp [strLtB])
      | cons c cs => rfl
  | cons a as ih =>
    intro y z h1 h2
    cases y with
    | nil => exact absurd h1 (by simp [strLtB])
    | cons b bs =>
      cases z with
      | nil => exact absurd h2 (by simp [strLtB])
      | cons c cs =>
        unfold strLtB at h1 h2 ⊢
        by_cases hab : a = b
        · subst hab
          rw [if_pos rfl] at h1
          by_cases hac : a = c
          · subst hac
            rw [if_pos rfl] at h2 ⊢
            exact ih h1 h2
          · rw [if_neg hac] at h2 ⊢
            exact h2
        · rw [if_neg hab] at h1
          by_cases hbc : b = c
          · subst hbc
            rw [if_neg hab]
            exact h1
          · rw [if_neg hbc] at h2
            simp only [charLtB, decide_eq_true_eq] at h1 h2
            have hlt := lt_trans h1 h2
            rw [if_neg (show ¬a = c from fun he => absurd (he ▸ hlt) (lt_irrefl c))]
            simpa [charLtB] using hlt

/-- The key order is total. -/
theorem strLtB_total :
    ∀ (x y : List Char), x = y ∨ strLtB x y = true ∨ strLtB y x = true := by
  intro x
  induction x with
  | nil =>
    intro y
    cases y with
    | nil => exact Or.inl rfl
    | cons b bs => exact Or.inr (Or.inl rfl)
  | cons a as ih =>
    intro y
    cases y with
    | nil => exact Or.inr (Or.inr rfl)
    | cons b bs =>
      by_cases hab : a = b
      · rcases ih bs with he | h1 | h1
        · exact Or.inl (by rw [hab, he])
        · exact Or.inr (Or.inl (by unfold strLtB; rw [if_pos hab]; exact h1))
        · refine Or.inr (Or.inr ?_)
          unfold strLtB
          rw [if_pos hab.symm]
          exact h1
      · rcases lt_or_gt_of_ne hab with h1 | h1
        · refine Or.inr (Or.inl ?_)
          unfold strLtB
          rw [if_neg hab]
          simpa [charLtB] using h1
        · refine Or.inr (Or.inr ?_)
          unfold strLtB
          rw [if_neg (fun he => hab he.symm)]
          simpa [charLtB] using h1

/-- Key order irreflexivity. -/
theorem keyLt_irrefl (a : String) : keyLt a a = false := strLtB_irrefl a.data

/-- Key order transitivity. -/
theorem keyLt_trans {a b c : String} (h1 : keyLt a b = true)
    (h2 : keyLt b c = true) : keyLt a c = true := strLtB_trans h1 h2

/-- Key order totality. -/
theorem keyLt_total (a b : String) (h : a ≠ b) :
    keyLt a b = true ∨ keyLt b a = true := by
  rcases strLtB_total a.data b.data with he | h1 | h1
  · exact absurd (String.ext he) h
  · exact Or.inl h1
  · exact Or.inr h1

/-- Sorted dictionary representation: keys strictly increase. -/
abbrev SortedK (d : Dict) : Prop := d.Pairwise (fun x y => keyLt x.1 y.1 = true)

/-- Everything in an insertion result is the new pair or an old one. -/
theorem mem_dinsert (d : Dict) (k : String) (v : Value) :
    ∀ y ∈ dinsert d k v, y = (k, v) ∨ y ∈ d := by
  induction d with
  | nil => intro y hy; simpa [dinsert] using hy
  | cons kv rest ih =>
    obtain ⟨k0, v0⟩ := kv
    intro y hy
    unfold dinsert at hy
    by_cases h0 : k0 = k
    · rw [if_pos h0] at hy
      rcases List.mem_cons.mp hy with h1 | h1
      · exact Or.inl h1
      · exact Or.inr (List.mem_cons_of_mem _ h1)
    · rw [if_neg h0] at hy
      by_cases h2 : keyLt k k0 = true
      · rw [if_pos h2] at hy
        rcases List.mem_cons.mp hy with h1 | h1
        · exact Or.inl h1
        · exact Or.inr h1
      · rw [if_neg h2] at hy
        rcases List.mem_cons.mp hy with h1 | h1
        · exact Or.inr (by rw [h1]; exact List.mem_cons_self _ _)
        · rcases ih y h1 with h3 | h3
          · exact Or.inl h3
          · exact Or.inr (List.mem_cons_of_mem _ h3)

/-- Sorted insertion keeps the dictionary sorted. -/
theorem sortedK_dinsert (d : Dict) (k : String) (v : Value)
    (hs : SortedK d) : SortedK (dinsert d k v) := by
  induction d with
  | nil => simp [dinsert]
  | cons kv rest ih =>
    obtain ⟨k0, v0⟩ := kv
    replace hs := List.pairwise_cons.mp hs
    unfold dinsert
    by_cases h0 : k0 = k
    · rw [if_pos h0]
      refine List.pairwise_cons.mpr ⟨fun y hy => h0 ▸ hs.1 y hy, hs.2⟩
    · rw [if_neg h0]
      by_cases h2 : keyLt k k0 = true
      · rw [if_pos h2]
        refine List.pairwise_cons.mpr
          ⟨?_, List.pairwise_cons.mpr hs⟩
        intro y hy
        rcases List.mem_cons.mp hy with h3 | h3
        · rw [h3]
          exact h2
        · exact keyLt_trans h2 (hs.1 y h3)
      · rw [if_neg h2]
        refine List.pairwise_cons.mpr ⟨?_, ih hs.2⟩
        intro y hy
        rcases mem_dinsert rest k v y hy with h3 | h3
        · rw [h3]
          rcases keyLt_total k0 k (fun he => h0 he) with h4 | h4
          · exact h4
          · exact absurd h4 (by simpa using h2)
        · exact hs.1 y h3

/-- A sorted dictionary has duplicate-free keys. -/
theorem sortedK_nodupKeys (d : Dict) (hs : SortedK d) : nodupKeys d = true := by
  induction d with
  | nil => rfl
  | cons kv rest ih =>
    obtain ⟨k0, v0⟩ := kv
    replace hs := List.pairwise_cons.mp hs
    unfold nodupKeys
    rw [Bool.and_eq_true]
    refine ⟨?_, ih hs.2⟩
    rw [List.all_eq_true]
    intro y hy
    have := hs.1 y hy
    simp only [decide_eq_true_eq]
    intro he
    rw [← he] at this
    exact absurd this (by simp [keyLt_irrefl])

/-- Filtering keeps a dictionary sorted (canonize, dremove). -/
theorem sortedK_filter (d : Dict) (p : String × Value → Bool)
    (hs : SortedK d) : SortedK (d.filter p) :=
  List.Pairwise.sublist (List.filter_sublist d) hs

/-- Folded insertions keep a dictionary sorted (Set's overwrite loop). -/
theorem sortedK_foldl_dinsert (ps : List (String × Value)) (d : Dict)
    (hs : SortedK d) :
    SortedK (ps.foldl (fun a kv => dinsert a kv.1 kv.2) d) := by
  induction ps generalizing d with
  | nil => exact hs
  | cons p rest ih =>
    exact ih (dinsert d p.1 p.2) (sortedK_dinsert d p.1 p.2 hs)

/-- Folded removals keep a dictionary sorted (Lose's pop loop). -/
theorem sortedK_foldl_dremove (ks : List String) (d : Dict)
    (hs : SortedK d) :
    SortedK (ks.foldl (fun a k => dremove a k) d) := by
  induction ks generalizing d with
  | nil => exact hs
  | cons k rest ih => exact ih (dremove d k) (sortedK_filter d _ hs)

/-- A key missing from a dict is no entry's key. -/
theorem dget_none_forall (d : Dict) (k : String) (h : dget d k = none) :
    ∀ y ∈ d, y.1 ≠ k := by
  induction d with
  | nil => intro y hy; exact absurd hy (List.not_mem_nil y)
  | cons kv rest ih =>
    obtain ⟨k0, v0⟩ := kv
    unfold dget at h
    by_cases h0 : k0 = k
    · rw [if_pos h0] at h
      exact absurd h (by simp)
    · rw [if_neg h0] at h
      intro y hy
      rcases List.mem_cons.mp hy with h1 | h1
      · rw [h1]
        exact h0
      · exact ih h y h1

/-- Folded insertion leaves non-mapped keys alone. -/
theorem dget_foldl_not_mem (ps : List (String × Value)) (d : Dict)
    (k : String) (h : ∀ kv ∈ ps, kv.1 ≠ k) :
    dget (ps.foldl (fun a kv => dinsert a kv.1 kv.2) d) k = dget d k := by
  induction ps generalizing d with
  | nil => rfl
  | cons p rest ih =>
    rw [List.foldl_cons]
    rw [ih (dinsert d p.1 p.2) (fun kv hm => h kv (List.mem_cons_of_mem _ hm))]
    exact dget_dinsert_ne d p.1 k p.2 (h p (List.mem_cons_self _ _))

/-- Folded insertion installs each binding of a duplicate-free mapping. -/
theorem dget_foldl_mem (ps : List (String × Value)) (d : Dict) (k : String)
    (v : Value) (hnd : nodupKeys ps = true) (h : (k, v) ∈ ps) :
    dget (ps.foldl (fun a kv => dinsert a kv.1 kv.2) d) k = some v := by
  induction ps generalizing d with
  | nil => exact absurd h (List.not_mem_nil _)
  | cons p rest ih =>
    obtain ⟨pk, pv⟩ := p
    unfold nodupKeys at hnd
    rw [Bool.and_eq_true] at hnd
    rw [List.foldl_cons]
    rcases List.mem_cons.mp h with h1 | h1
    · rw [Prod.mk.injEq] at h1
      have hkeys : ∀ kv ∈ rest, kv.1 ≠ k := by
        intro kv hm
        have := List.all_eq_true.mp hnd.1 kv hm
        simp only [decide_eq_true_eq] at this
        rw [h1.1]
        exact this
      rw [dget_foldl_not_mem rest _ k hkeys, h1.1, dget_dinsert_self, h1.2]
    · exact ih (dinsert d pk pv) hnd.2 h1

/-- Unpacking `wf`: duplicate-free keys, truthy values of the schema types. -/
theorem wf_spec (sc : Schema) (st : Dict) (h : wf sc st = true) :
    nodupKeys st = true ∧ ∀ kv ∈ st, kv.2.truthy = true ∧
      ∃ t, lookupType sc kv.1 = some t ∧ typeMatch t kv.2 = true := by
  unfold wf at h
  rw [Bool.and_eq_true] at h
  refine ⟨h.1, ?_⟩
  intro kv hm
  have h2 := List.all_eq_true.mp h.2 kv hm
  rw [Bool.and_eq_true] at h2
  refine ⟨h2.1, ?_⟩
  rcases hl : lookupType sc kv.1 with _ | t
  · rw [hl] at h2
    exact absurd h2.2 (by simp)
  · rw [hl] at h2
    exact ⟨t, rfl, h2.2⟩

/-- A state is at least its own stored value at any key of matching type. -/
theorem atleast_self (sc : Schema) (st2 : Dict) (k : String) (v : Value)
    (t : QType) (ht : lookupType sc k = some t) (hm : typeMatch t v = true)
    (hd : dget st2 k = some v) : atleast sc st2 k v = true := by
  unfold atleast
  by_cases htr : v.truthy = false
  · rw [if_pos htr]
  · rw [if_neg htr, hd, ht]
    cases t <;> cases v <;>
      simp_all [typeMatch, Value.ltv, Value.issup]

/-- An IMPROVE-classified Set maps every key to the boolean matching its
sense: true on positive-sense keys, false on negative-sense ones. -/
theorem setEquiv_improve_val (ps : List (String × Value))
    (h : setEquiv ps = EquivT.improve) :
    ∀ kv ∈ ps, kv.2 = Value.vb (sense kv.1) := by
  unfold setEquiv at h
  by_cases h1 : ps.all (fun kv => kv.2.isBool) = true
  · rw [if_pos h1] at h
    by_cases h2 : ps.countP
        (fun kv => (!(startsUnderscore kv.1) && kv.2.truthy) ||
          (startsUnderscore kv.1 && !kv.2.truthy)) = ps.length
    · intro kv hm
      have hb := List.all_eq_true.mp h1 kv hm
      have hp := List.countP_eq_length.mp h2 kv hm
      cases hv : kv.2 with
      | vb b =>
        rw [hv] at hp
        unfold sense
        cases hsu : startsUnderscore kv.1 <;> rw [hsu] at hp <;>
          simp only [Value.truthy, Bool.not_true, Bool.not_false,
            Bool.true_and, Bool.false_and, Bool.and_true, Bool.and_false,
            Bool.or_false, Bool.false_or, Bool.not_eq_true,
            Bool.not_eq_true'] at hp <;>
          simp [hp]
      | vi n =>
        rw [hv] at hb
        exact absurd hb (by simp [Value.isBool])
      | vs s =>
        rw [hv] at hb
        exact absurd hb (by simp [Value.isBool])
      | vset s =>
        rw [hv] at hb
        exact absurd hb (by simp [Value.isBool])
    · rw [if_neg h2] at h
      exact absurd h (by decide)
  · rw [if_neg h1] at h
    exact absurd h (by decide)

/-- Reading an absent key yields the falsy default. -/
theorem readVal_none (t : QType) (st : Dict) (k : String)
    (h : dget st k = none) : readVal t st k = defaultVal t := by
  unfold readVal
  rw [h]

/-- Reading a present key yields its value. -/
theorem readVal_some (t : QType) (st : Dict) (k : String) (v : Value)
    (h : dget st k = some v) : readVal t st k = v := by
  unfold readVal
  rw [h]

/-- An absent (falsy) target is always reached: the absence-aware table. -/
theorem tab_default_right (t : QType) (x : Value) :
    tabAtLeastAbs t x (defaultVal t) = true := by
  cases t <;> simp [tabAtLeastAbs, defaultVal, asB, asI, asS, asSet]

/-- A schema lookup result is a schema entry. -/
theorem lookupType_mem (sc : Schema) (k : String) (t : QType)
    (h : lookupType sc k = some t) : (k, t) ∈ sc := by
  induction sc with
  | nil => exact absurd h (by simp [lookupType])
  | cons kt rest ih =>
    obtain ⟨k0, t0⟩ := kt
    unfold lookupType at h
    by_cases h0 : k0 = k
    · rw [if_pos h0] at h
      injection h with hv
      rw [← h0, ← hv]
      exact List.mem_cons_self _ _
    · rw [if_neg h0] at h
      exact List.mem_cons_of_mem _ (ih h)

/-- With a duplicate-free schema, membership determines the lookup. -/
theorem mem_lookupType (sc : Schema) (k : String) (t : QType)
    (hnd : nodupSchema sc = true) (h : (k, t) ∈ sc) :
    lookupType sc k = some t := by
  induction sc with
  | nil => exact absurd h (List.not_mem_nil _)
  | cons kt rest ih =>
    obtain ⟨k0, t0⟩ := kt
    unfold nodupSchema at hnd
    rw [Bool.and_eq_true] at hnd
    rcases List.mem_cons.mp h with h1 | h2
    · rw [Prod.mk.injEq] at h1
      unfold lookupType
      rw [if_pos h1.1.symm, h1.2]
    · unfold lookupType
      have hkne : k0 ≠ k := by
        have := List.all_eq_true.mp hnd.1 (k, t) h2
        simp only [decide_eq_true_eq] at this
        exact fun he => this he.symm
      rw [if_neg hkne]
      exact ih hnd.2 h2

/-- The bridge between the implementation's `atleast` and the absence-aware
table relation: for a truthy, well-typed target value `v` at schema key `k`,
`stx.atleast(k, v)` holds exactly when `at_least(stx[k], v)` does in the
amended table, reading an absent key as the falsy default. -/
theorem atleast_iff_tab (sc : Schema) (stx : Dict) (k : String) (t : QType)
    (v : Value) (hlt : lookupType sc k = some t) (htm : typeMatch t v = true)
    (htr : v.truthy = true) (hwx : wf sc stx = true) :
    (atleast sc stx k v = true ↔
      tabAtLeastAbs t (readVal t stx k) v = true) := by
  obtain ⟨hndx, hvalx⟩ := wf_spec sc stx hwx
  unfold atleast
  rw [if_neg (by simp [htr])]
  cases hg : dget stx k with
  | none =>
    rw [readVal_none t stx k hg]
    clear hvalx hwx hndx
    cases t <;> cases v <;>
      simp_all [typeMatch, tabAtLeastAbs, defaultVal, asB, asI, asS, asSet,
        Value.truthy, Finset.subset_empty] <;>
      exact fun he => htr he.symm
  | some w =>
    rw [readVal_some t stx k w hg]
    obtain ⟨htrw, t2, hlt2, htmw⟩ := hvalx (k, w) (dget_mem stx k w hg)
    have ht2 : t2 = t := by
      have h3 := hlt2.symm.trans hlt
      injection h3
    subst ht2
    clear hvalx hwx hndx hlt2 hg
    rw [hlt]
    cases t2 <;> cases v <;> cases w <;>
      simp_all [typeMatch, tabAtLeastAbs, Value.ltv, Value.issup, asB, asI,
        asS, asSet, Value.truthy, Int.not_lt]

/-- C1 (counterexample): on a negative-sense boolean key the containment
order the code implements disagrees with the spec's table as the claim states
it — a well-formed state fails to be below itself under the table's
`at_most(a,b) = ¬b ∨ ¬a` cell, while the implementation (correctly) has
`A <= A`. -/
theorem le_spec_table_counterexample :
    wf scNegBool stNegBool = true ∧
    leD scNegBool stNegBool stNegBool = true ∧
    specLeClaim scNegBool stNegBool stNegBool = false := by decide

/-- C1 (amended): over well-formed states the implemented order coincides
with the spec's per-key table read with `at_least` on both senses (operands
swapped on negative sense, as the spec's glosses describe) and the
absence-aware int cell. -/
theorem le_iff_spec_amended (sc : Schema) (a b : Dict)
    (hscnd : nodupSchema sc = true)
    (hwa : wf sc a = true) (hwb : wf sc b = true) :
    leD sc a b = true ↔ specLeAmended sc a b = true := by
  obtain ⟨hnda, hvala⟩ := wf_spec sc a hwa
  obtain ⟨hndb, hvalb⟩ := wf_spec sc b hwb
  unfold leD contains specLeAmended
  rw [Bool.and_eq_true, List.all_eq_true, List.all_eq_true, List.all_eq_true]
  constructor
  · rintro ⟨h1, h2⟩ kt hkt
    obtain ⟨k, t⟩ := kt
    simp only
    by_cases hsen : sense k = true
    · rw [if_pos hsen]
      cases hga : dget a k with
      | none =>
        rw [readVal_none t a k hga]
        exact tab_default_right t _
      | some va =>
        have hma : (k, va) ∈ a := dget_mem a k va hga
        obtain ⟨htra, ta, hlta, htma⟩ := hvala (k, va) hma
        have hteq : ta = t := by
          have h3 := hlta.symm.trans (mem_lookupType sc k t hscnd hkt)
          injection h3
        subst hteq
        rw [readVal_some ta a k va hga]
        have hat := h1 (k, va) hma
        simp only [hsen, if_true] at hat
        exact (atleast_iff_tab sc b k ta va hlta htma htra hwb).mp hat
    · rw [if_neg hsen]
      cases hgb : dget b k with
      | none =>
        rw [readVal_none t b k hgb]
        exact tab_default_right t _
      | some vb0 =>
        have hmb : (k, vb0) ∈ b := dget_mem b k vb0 hgb
        obtain ⟨htrb, tb, hltb, htmb⟩ := hvalb (k, vb0) hmb
        have hteq : tb = t := by
          have h3 := hltb.symm.trans (mem_lookupType sc k t hscnd hkt)
          injection h3
        subst hteq
        rw [readVal_some tb b k vb0 hgb]
        have hat := h2 (k, vb0) hmb
        simp only at hat
        rw [if_neg hsen] at hat
        exact (atleast_iff_tab sc a k tb vb0 hltb htmb htrb hwa).mp hat
  · intro hs
    constructor
    · intro kv hm
      obtain ⟨k, va⟩ := kv
      simp only
      by_cases hsen : sense k = true
      · rw [if_pos hsen]
        obtain ⟨htra, ta, hlta, htma⟩ := hvala (k, va) hm
        have hkt : (k, ta) ∈ sc := lookupType_mem sc k ta hlta
        have hf := hs (k, ta) hkt
        simp only [hsen, if_true] at hf
        rw [readVal_some ta a k va (mem_dget a k va hnda hm)] at hf
        exact (atleast_iff_tab sc b k ta va hlta htma htra hwb).mpr hf
      · rw [if_neg hsen]
    · intro kv hm
      obtain ⟨k, vb0⟩ := kv
      simp only
      by_cases hsen : sense k = true
      · rw [if_pos hsen]
      · rw [if_neg hsen]
        obtain ⟨htrb, tb, hltb, htmb⟩ := hvalb (k, vb0) hm
        have hkt : (k, tb) ∈ sc := lookupType_mem sc k tb hltb
        have hf := hs (k, tb) hkt
        simp only at hf
        rw [if_neg hsen] at hf
        rw [readVal_some tb b k vb0 (mem_dget b k vb0 hndb hm)] at hf
        exact (atleast_iff_tab sc a k tb vb0 hltb htmb htrb hwa).mpr hf

/-- C1 (witness): concrete well-formed states over a two-key schema with one
negative-sense quality; the orders agree. -/
theorem le_iff_spec_amended_witness :
    nodupSchema [("_b", QType.tbool), ("sword", QType.tbool)] = true ∧
    wf [("_b", QType.tbool), ("sword", QType.tbool)] [("_b", Value.vb true)] = true ∧
    wf [("_b", QType.tbool), ("sword", QType.tbool)] [("sword", Value.vb true)] = true ∧
    (leD [("_b", QType.tbool), ("sword", QType.tbool)]
        [("_b", Value.vb true)] [("sword", Value.vb true)] = true ↔
      specLeAmended [("_b", QType.tbool), ("sword", QType.tbool)]
        [("_b", Value.vb true)] [("sword", Value.vb true)] = true) :=
  ⟨by decide, by decide, by decide,
    le_iff_spec_amended [("_b", QType.tbool), ("sword", QType.tbool)]
      [("_b", Value.vb true)] [("sword", Value.vb true)]
      (by decide) (by decide) (by decide)⟩

/-- C2 (counterexample): over a schema with a negative-sense string key the
meet is not a lower bound: for `A = {_s: "x"}` and `B = {_s: "y"}` the meet
drops the key entirely and the resulting state is not `<= A`. -/
theorem meet_lower_bound_counterexample :
    wf scNegStr [("_s", Value.vs "x")] = true ∧
    wf scNegStr [("_s", Value.vs "y")] = true ∧
    meetD scNegStr [("_s", Value.vs "x")] [("_s", Value.vs "y")] = [] ∧
    leD scNegStr (meetD scNegStr [("_s", Value.vs "x")] [("_s", Value.vs "y")])
      [("_s", Value.vs "x")] = false := by decide

/-- Filtering keeps keys duplicate-free. -/
theorem nodupKeys_filter (d : Dict) (p : String × Value → Bool)
    (h : nodupKeys d = true) : nodupKeys (d.filter p) = true := by
  induction d with
  | nil => simp [nodupKeys]
  | cons kv rest ih =>
    obtain ⟨k0, v0⟩ := kv
    unfold nodupKeys at h
    rw [Bool.and_eq_true] at h
    by_cases hp : p (k0, v0) = true
    · rw [List.filter_cons_of_pos hp]
      unfold nodupKeys
      rw [Bool.and_eq_true]
      refine ⟨?_, ih h.2⟩
      rw [List.all_eq_true]
      intro y hy
      exact List.all_eq_true.mp h.1 y (List.mem_of_mem_filter hy)
    · rw [List.filter_cons_of_neg hp]
      exact ih h.2

/-- A filterMap over duplicate-free keys that tags each output with its key
yields a duplicate-free dict. -/
theorem nodupKeys_filterMap (ks : List String)
    (f : String → Option (String × Value))
    (hf : ∀ k y, f k = some y → y.1 = k) (hnd : ks.Nodup) :
    nodupKeys (ks.filterMap f) = true := by
  induction ks with
  | nil => simp [nodupKeys]
  | cons k rest ih =>
    rw [List.nodup_cons] at hnd
    rw [List.filterMap_cons]
    cases hk : f k with
    | none => exact ih hnd.2
    | some y =>
      unfold nodupKeys
      rw [Bool.and_eq_true]
      refine ⟨?_, ih hnd.2⟩
      rw [List.all_eq_true]
      intro z hz
      rcases List.mem_filterMap.mp hz with ⟨k2, hk2, hfk2⟩
      have hz1 : z.1 = k2 := hf k2 z hfk2
      have hy1 : y.1 = k := hf k y hk
      simp only [decide_eq_true_eq, hz1, hy1]
      intro he
      exact hnd.1 (he ▸ hk2)

/-- The entries of the meet loop's dictionary, inverted. -/
theorem rawMeet_mem (sc : Schema) (a b : Dict) (kv : String × Value) :
    kv ∈ rawMeet sc a b ↔ kv.1 ∈ meetKeys a b ∧ ∃ t,
      lookupType sc kv.1 = some t ∧
      meetVal t (sense kv.1) (dget a kv.1) (dget b kv.1) = some kv.2 := by
  unfold rawMeet
  rw [List.mem_filterMap]
  constructor
  · rintro ⟨k, hk, hf⟩
    cases hl : lookupType sc k with
    | none =>
      simp only [hl] at hf
      exact absurd hf (by simp)
    | some t =>
      simp only [hl] at hf
      cases hm : meetVal t (sense k) (dget a k) (dget b k) with
      | none =>
        simp only [hm] at hf
        exact absurd hf (by simp)
      | some v =>
        have hf2 : (k, v) = kv := by simpa [hm] using hf
        subst hf2
        exact ⟨hk, t, hl, hm⟩
  · rintro ⟨hk, t, hl, hm⟩
    refine ⟨kv.1, hk, ?_⟩
    simp [hl, hm]

/-- The meet result has duplicate-free keys. -/
theorem nodupKeys_rawMeet (sc : Schema) (a b : Dict) :
    nodupKeys (rawMeet sc a b) = true := by
  unfold rawMeet
  refine nodupKeys_filterMap _ _ ?_ (List.nodup_dedup _)
  intro k y hy
  cases hl : lookupType sc k with
  | none =>
    simp only [hl] at hy
    exact absurd hy (by simp)
  | some t =>
    simp only [hl] at hy
    cases hm : meetVal t (sense k) (dget a k) (dget b k) with
    | none =>
      simp only [hm] at hy
      exact absurd hy (by simp)
    | some v =>
      have hy2 : (k, v) = y := by simpa [hm] using hy
      rw [← hy2]

/-- A key of the left operand is a key of the meet loop. -/
theorem meetKeys_left (a b : Dict) (k : String) (v : Value)
    (h : (k, v) ∈ a) : k ∈ meetKeys a b := by
  unfold meetKeys
  rw [List.mem_dedup]
  exact List.mem_append_left _ (List.mem_map.mpr ⟨(k, v), h, rfl⟩)

/-- A key of the right operand is a key of the meet loop. -/
theorem meetKeys_right (a b : Dict) (k : String) (v : Value)
    (h : (k, v) ∈ b) : k ∈ meetKeys a b := by
  unfold meetKeys
  rw [List.mem_dedup]
  exact List.mem_append_right _ (List.mem_map.mpr ⟨(k, v), h, rfl⟩)

/-- A truthy value computed by the meet loop is found in the meet. -/
theorem dget_meetD (sc : Schema) (a b : Dict) (k : String) (t : QType)
    (m : Value) (hk : k ∈ meetKeys a b) (hlt : lookupType sc k = some t)
    (hmv : meetVal t (sense k) (dget a k) (dget b k) = some m)
    (htr : m.truthy = true) : dget (meetD sc a b) k = some m := by
  have hraw : (k, m) ∈ rawMeet sc a b :=
    (rawMeet_mem sc a b (k, m)).mpr ⟨hk, t, hlt, hmv⟩
  have hcan : (k, m) ∈ meetD sc a b :=
    List.mem_filter.mpr ⟨hraw, by simpa using htr⟩
  exact mem_dget _ _ _ (nodupKeys_filter _ _ (nodupKeys_rawMeet sc a b)) hcan

/-- The positive-sense meet of two present values is at most the left one
(in the implementation's `atleast` sense, read at the left state). -/
theorem atleast_posMeet_left (sc : Schema) (a : Dict) (k : String)
    (t : QType) (x y m : Value) (hlt : lookupType sc k = some t)
    (hga : dget a k = some x) (hpm : posMeet t x y = some m)
    (htrm : m.truthy = true) : atleast sc a k m = true := by
  unfold atleast
  rw [if_neg (by simp [htrm]), hga, hlt]
  cases t <;> cases x <;> cases y <;>
    simp only [posMeet, Option.some.injEq, reduceCtorEq] at hpm
  all_goals try exact hpm.elim
  all_goals try (subst hpm
                 simp_all [Value.ltv, Value.issup, Value.truthy,
                   inf_le_left, Finset.inter_subset_left]
                 done)
  all_goals (split at hpm
             · next heq =>
                 injection hpm with hm2
                 subst hm2
                 simp
             · exact absurd hpm (by simp))

/-- The positive-sense meet of two present values is at most the right one. -/
theorem atleast_posMeet_right (sc : Schema) (b : Dict) (k : String)
    (t : QType) (x y m : Value) (hlt : lookupType sc k = some t)
    (hgb : dget b k = some y) (hpm : posMeet t x y = some m)
    (htrm : m.truthy = true) : atleast sc b k m = true := by
  unfold atleast
  rw [if_neg (by simp [htrm]), hgb, hlt]
  cases t <;> cases x <;> cases y <;>
    simp only [posMeet, Option.some.injEq, reduceCtorEq] at hpm
  all_goals try exact hpm.elim
  all_goals try (subst hpm
                 simp_all [Value.ltv, Value.issup, Value.truthy,
                   inf_le_right, Finset.inter_subset_right]
                 done)
  all_goals (split at hpm
             · next heq =>
                 injection hpm with hm2
                 subst hm2
                 simp [heq]
             · exact absurd hpm (by simp))

/-- The negative-sense meet of two present values dominates the left one:
a state holding the meet value is `atleast` the left operand.  (String keys
are excluded: their negative-sense meet is the documented broken case.) -/
theorem atleast_negMeet_left (sc : Schema) (M : Dict) (k : String)
    (t : QType) (x y m : Value) (hnst : t ≠ QType.tstr)
    (hlt : lookupType sc k = some t) (hdm : dget M k = some m)
    (hnm : negMeet t x y = some m) (htrx : x.truthy = true) :
    atleast sc M k x = true := by
  unfold atleast
  rw [if_neg (by simp [htrx]), hdm, hlt]
  cases t
  case tstr => exact absurd rfl hnst
  all_goals
    cases x <;> cases y <;>
      simp only [negMeet, Option.some.injEq, reduceCtorEq] at hnm
  all_goals try exact hnm.elim
  all_goals
    subst hnm
    simp_all [Value.ltv, Value.issup, Value.truthy, le_sup_left,
      Finset.subset_union_left]

/-- The negative-sense meet of two present values dominates the right one. -/
theorem atleast_negMeet_right (sc : Schema) (M : Dict) (k : String)
    (t : QType) (x y m : Value) (hnst : t ≠ QType.tstr)
    (hlt : lookupType sc k = some t) (hdm : dget M k = some m)
    (hnm : negMeet t x y = some m) (htry : y.truthy = true) :
    atleast sc M k y = true := by
  unfold atleast
  rw [if_neg (by simp [htry]), hdm, hlt]
  cases t
  case tstr => exact absurd rfl hnst
  all_goals
    cases x <;> cases y <;>
      simp only [negMeet, Option.some.injEq, reduceCtorEq] at hnm
  all_goals try exact hnm.elim
  all_goals
    subst hnm
    simp_all [Value.ltv, Value.issup, Value.truthy, le_sup_right,
      Finset.subset_union_right]

/-- The negative-sense meet of two present truthy values is truthy. -/
theorem negMeet_truthy (t : QType) (x y m : Value)
    (hnm : negMeet t x y = some m) (htrx : x.truthy = true)
    (htry : y.truthy = true) : m.truthy = true := by
  cases t <;> cases x <;> cases y <;>
    simp only [negMeet, Option.some.injEq, reduceCtorEq] at hnm
  all_goals try exact hnm.elim
  case tstr.vs.vs sx sy =>
    split at hnm
    · next heq =>
        injection hnm with hm2
        subst hm2
        simpa using htrx
    · exact absurd hnm (by simp)
  all_goals
    subst hnm
    simp_all [Value.truthy]
  case tint.vi.vi n p =>
    rcases max_choice n p with hc | hc <;> rw [hc] <;> simp_all
  case tset.vset.vset s u =>
    intro hc
    rw [Finset.union_eq_empty] at hc
    exact htrx hc.1

/-- For matching non-string types the negative-sense meet always exists. -/
theorem negMeet_some (t : QType) (x y : Value) (hnst : t ≠ QType.tstr)
    (htx : typeMatch t x = true) (hty : typeMatch t y = true) :
    (negMeet t x y).isSome = true := by
  cases t
  case tstr => exact absurd rfl hnst
  all_goals cases x <;> cases y <;> simp_all [negMeet, typeMatch]

/-- The meet is below the left operand (no negative-sense string keys). -/
theorem meet_le_lft (sc : Schema) (a b : Dict)
    (hwa : wf sc a = true) (hwb : wf sc b = true)
    (hns : ∀ kt ∈ sc, sense kt.1 = false → kt.2 ≠ QType.tstr) :
    leD sc (meetD sc a b) a = true := by
  obtain ⟨hnda, hvala⟩ := wf_spec sc a hwa
  obtain ⟨hndb, hvalb⟩ := wf_spec sc b hwb
  unfold leD contains
  rw [Bool.and_eq_true]
  constructor
  · rw [List.all_eq_true]
    intro kv hm
    by_cases hsen : sense kv.1 = true
    · rw [if_pos hsen]
      have hmf := List.mem_filter.mp hm
      have htr : kv.2.truthy = true := by simpa using hmf.2
      obtain ⟨hk, t, hlt, hmv⟩ := (rawMeet_mem sc a b kv).mp hmf.1
      rw [hsen] at hmv
      cases hga : dget a kv.1 with
      | none =>
        rw [hga] at hmv
        cases hgb : dget b kv.1 <;> rw [hgb] at hmv <;>
          simp [meetVal] at hmv
      | some va =>
        cases hgb : dget b kv.1 with
        | none =>
          rw [hga, hgb] at hmv
          simp [meetVal] at hmv
        | some vb0 =>
          rw [hga, hgb] at hmv
          simp only [meetVal, if_true] at hmv
          exact atleast_posMeet_left sc a kv.1 t va vb0 kv.2 hlt hga hmv htr
    · rw [if_neg hsen]
  · rw [List.all_eq_true]
    intro kv hm
    by_cases hsen : sense kv.1 = true
    · rw [if_pos hsen]
    · rw [if_neg hsen]
      obtain ⟨htra, t, hlt, htm⟩ := hvala kv hm
      have hsf : sense kv.1 = false := by
        cases hx : sense kv.1
        · rfl
        · exact absurd hx hsen
      have hnst : t ≠ QType.tstr :=
        hns (kv.1, t) (lookupType_mem sc kv.1 t hlt) hsf
      have hga : dget a kv.1 = some kv.2 := mem_dget a kv.1 kv.2 hnda hm
      have hk : kv.1 ∈ meetKeys a b := meetKeys_left a b kv.1 kv.2 hm
      cases hgb : dget b kv.1 with
      | none =>
        have hmv : meetVal t (sense kv.1) (dget a kv.1) (dget b kv.1)
            = some kv.2 := by
          rw [hga, hgb, hsf]
          rfl
        exact atleast_self sc _ kv.1 kv.2 t hlt htm
          (dget_meetD sc a b kv.1 t kv.2 hk hlt hmv htra)
      | some vb0 =>
        have hmv0 : meetVal t (sense kv.1) (dget a kv.1) (dget b kv.1)
            = negMeet t kv.2 vb0 := by
          rw [hga, hgb, hsf]
          rfl
        obtain ⟨htrb, tb, hltb, htmb⟩ := hvalb (kv.1, vb0)
          (dget_mem b kv.1 vb0 hgb)
        have hteq : tb = t := by
          have h3 := hltb.symm.trans hlt
          injection h3
        subst hteq
        cases hnm : negMeet tb kv.2 vb0 with
        | none =>
          have hsome := negMeet_some tb kv.2 vb0 hnst htm htmb
          rw [hnm] at hsome
          exact absurd hsome (by simp)
        | some m =>
          have htrm := negMeet_truthy tb kv.2 vb0 m hnm htra htrb
          have hdm := dget_meetD sc a b kv.1 tb m hk hlt
            (by rw [hmv0, hnm]) htrm
          exact atleast_negMeet_left sc _ kv.1 tb kv.2 vb0 m hnst hlt hdm
            hnm htra

/-- The meet is below the right operand (no negative-sense string keys). -/
theorem meet_le_rgt (sc : Schema) (a b : Dict)
    (hwa : wf sc a = true) (hwb : wf sc b = true)
    (hns : ∀ kt ∈ sc, sense kt.1 = false → kt.2 ≠ QType.tstr) :
    leD sc (meetD sc a b) b = true := by
  obtain ⟨hnda, hvala⟩ := wf_spec sc a hwa
  obtain ⟨hndb, hvalb⟩ := wf_spec sc b hwb
  unfold leD contains
  rw [Bool.and_eq_true]
  constructor
  · rw [List.all_eq_true]
    intro kv hm
    by_cases hsen : sense kv.1 = true
    · rw [if_pos hsen]
      have hmf := List.mem_filter.mp hm
      have htr : kv.2.truthy = true := by simpa using hmf.2
      obtain ⟨hk, t, hlt, hmv⟩ := (rawMeet_mem sc a b kv).mp hmf.1
      rw [hsen] at hmv
      cases hga : dget a kv.1 with
      | none =>
        rw [hga] at hmv
        cases hgb : dget b kv.1 <;> rw [hgb] at hmv <;>
          simp [meetVal] at hmv
      | some va =>
        cases hgb : dget b kv.1 with
        | none =>
          rw [hga, hgb] at hmv
          simp [meetVal] at hmv
        | some vb0 =>
          rw [hga, hgb] at hmv
          simp only [meetVal, if_true] at hmv
          exact atleast_posMeet_right sc b kv.1 t va vb0 kv.2 hlt hgb hmv htr
    · rw [if_neg hsen]
  · rw [List.all_eq_true]
    intro kv hm
    by_cases hsen : sense kv.1 = true
    · rw [if_pos hsen]
    · rw [if_neg hsen]
      obtain ⟨htrb, t, hlt, htm⟩ := hvalb kv hm
      have hsf : sense kv.1 = false := by
        cases hx : sense kv.1
        · rfl
        · exact absurd hx hsen
      have hnst : t ≠ QType.tstr :=
        hns (kv.1, t) (lookupType_mem sc kv.1 t hlt) hsf
      have hgb : dget b kv.1 = some kv.2 := mem_dget b kv.1 kv.2 hndb hm
      have hk : kv.1 ∈ meetKeys a b := meetKeys_right a b kv.1 kv.2 hm
      cases hga : dget a kv.1 with
      | none =>
        have hmv : meetVal t (sense kv.1) (dget a kv.1) (dget b kv.1)
            = some kv.2 := by
          rw [hga, hgb, hsf]
          rfl
        exact atleast_self sc _ kv.1 kv.2 t hlt htm
          (dget_meetD sc a b kv.1 t kv.2 hk hlt hmv htrb)
      | some va =>
        have hmv0 : meetVal t (sense kv.1) (dget a kv.1) (dget b kv.1)
            = negMeet t va kv.2 := by
          rw [hga, hgb, hsf]
          rfl
        obtain ⟨htra, ta, hlta, htma⟩ := hvala (kv.1, va)
          (dget_mem a kv.1 va hga)
        have hteq : ta = t := by
          have h3 := hlta.symm.trans hlt
          injection h3
        subst hteq
        cases hnm : negMeet ta va kv.2 with
        | none =>
          have hsome := negMeet_some ta va kv.2 hnst htma htm
          rw [hnm] at hsome
          exact absurd hsome (by simp)
        | some m =>
          have htrm := negMeet_truthy ta va kv.2 m hnm htra htrb
          have hdm := dget_meetD sc a b kv.1 ta m hk hlt
            (by rw [hmv0, hnm]) htrm
          exact atleast_negMeet_right sc _ kv.1 ta va kv.2 m hnst hlt hdm
            hnm htrb

/-- C2 (amended): over scenarios whose schema holds no negative-sense string
key, the meet is a lower bound of both operands. -/
theorem meet_lower_bound_no_neg_string (sc : Schema) (a b : Dict)
    (hwa : wf sc a = true) (hwb : wf sc b = true)
    (hns : ∀ kt ∈ sc, sense kt.1 = false → kt.2 ≠ QType.tstr) :
    leD sc (meetD sc a b) a = true ∧ leD sc (meetD sc a b) b = true :=
  ⟨meet_le_lft sc a b hwa hwb hns, meet_le_rgt sc a b hwa hwb hns⟩

/-- C2 (witness): a two-key schema with a positive boolean and a
negative-sense int, at concrete states. -/
theorem meet_lower_bound_no_neg_string_witness :
    wf [("food", QType.tbool), ("_d", QType.tint)]
      [("_d", Value.vi 2), ("food", Value.vb true)] = true ∧
    wf [("food", QType.tbool), ("_d", QType.tint)] [("_d", Value.vi 5)] = true ∧
    (∀ kt ∈ [("food", QType.tbool), ("_d", QType.tint)],
      sense kt.1 = false → kt.2 ≠ QType.tstr) ∧
    (leD [("food", QType.tbool), ("_d", QType.tint)]
      (meetD [("food", QType.tbool), ("_d", QType.tint)]
        [("_d", Value.vi 2), ("food", Value.vb true)] [("_d", Value.vi 5)])
      [("_d", Value.vi 2), ("food", Value.vb true)] = true ∧
    leD [("food", QType.tbool), ("_d", QType.tint)]
      (meetD [("food", QType.tbool), ("_d", QType.tint)]
        [("_d", Value.vi 2), ("food", Value.vb true)] [("_d", Value.vi 5)])
      [("_d", Value.vi 5)] = true) :=
  ⟨by decide, by decide, by decide,
    meet_lower_bound_no_neg_string [("food", QType.tbool), ("_d", QType.tint)]
      [("_d", Value.vi 2), ("food", Value.vb true)] [("_d", Value.vi 5)]
      (by decide) (by decide) (by decide)⟩

/-- C3 (counterexample): `Set(sword=True)` is classified IMPROVE, is
applicable to `{sword: True}` (a Set never fails), and returns a state equal
to — not strictly greater than — its input. -/
theorem improve_set_not_strict_counterexample :
    setEquiv [("sword", Value.vb true)] = EquivT.improve ∧
    acall scSword (.aset [("sword", Value.vb true)]) stSword = some stSword ∧
    gtD scSword stSword stSword = false := by decide

/-- C3 (amended): an IMPROVE-classified Set always applies, and its result
contains the input state: `a(S) >= S`; it is strictly greater exactly when it
differs from `S` (by the definition of `>` as difference plus containment). -/
theorem improve_set_ge (sc : Schema) (ps : List (String × Value)) (st : Dict)
    (hwf : wf sc st = true) (hsort : SortedK st)
    (hndps : nodupKeys ps = true)
    (hty : ∀ kv ∈ ps, lookupType sc kv.1 = some QType.tbool)
    (himp : setEquiv ps = EquivT.improve) :
    acall sc (.aset ps) st =
      some (canonize (ps.foldl (fun d kv => dinsert d kv.1 kv.2) st)) ∧
    geD sc (canonize (ps.foldl (fun d kv => dinsert d kv.1 kv.2) st)) st = true ∧
    (gtD sc (canonize (ps.foldl (fun d kv => dinsert d kv.1 kv.2) st)) st = true ↔
      canonize (ps.foldl (fun d kv => dinsert d kv.1 kv.2) st) ≠ st) := by
  obtain ⟨hnd, hval⟩ := wf_spec sc st hwf
  have hpv := setEquiv_improve_val ps himp
  have hsF : SortedK (ps.foldl (fun d kv => dinsert d kv.1 kv.2) st) :=
    sortedK_foldl_dinsert ps st hsort
  have hndF := sortedK_nodupKeys _ hsF
  have hcontains :
      contains sc (canonize (ps.foldl (fun d kv => dinsert d kv.1 kv.2) st)) st
        = true := by
    unfold contains
    rw [Bool.and_eq_true]
    constructor
    · rw [List.all_eq_true]
      intro kv hm
      obtain ⟨htr, t, hlt, htm⟩ := hval kv hm
      by_cases hsen : sense kv.1 = true
      · rw [if_pos hsen]
        cases hg : dget ps kv.1 with
        | some pv =>
          have hpm : (kv.1, pv) ∈ ps := dget_mem ps _ _ hg
          have hvv := hpv _ hpm
          simp only at hvv
          rw [hsen] at hvv
          have hgF : dget (ps.foldl (fun d kv => dinsert d kv.1 kv.2) st) kv.1
              = some pv := dget_foldl_mem ps st _ _ hndps hpm
          have hgR : dget
              (canonize (ps.foldl (fun d kv => dinsert d kv.1 kv.2) st)) kv.1
              = some pv := by
            rw [dget_canonize _ _ hndF, hgF, hvv]
            simp [Value.truthy]
          have hlt2 := hty (kv.1, pv) hpm
          simp only at hlt2
          have htb : t = QType.tbool := by
            have h3 := hlt.symm.trans hlt2
            injection h3
          rw [htb] at htm
          cases hb : kv.2 with
          | vb b =>
            unfold atleast
            rw [hb] at htr
            have hbt : b = true := by simpa [Value.truthy] using htr
            rw [hbt]
            rw [if_neg (by simp [Value.truthy])]
            rw [hgR, hlt, htb, hvv]
            simp
          | vi n => rw [hb] at htm; exact absurd htm (by simp [typeMatch])
          | vs s => rw [hb] at htm; exact absurd htm (by simp [typeMatch])
          | vset s => rw [hb] at htm; exact absurd htm (by simp [typeMatch])
        | none =>
          have hgF : dget (ps.foldl (fun d kv => dinsert d kv.1 kv.2) st) kv.1
              = some kv.2 := by
            rw [dget_foldl_not_mem ps st kv.1 (dget_none_forall ps kv.1 hg)]
            exact mem_dget st kv.1 kv.2 hnd hm
          have hgR : dget
              (canonize (ps.foldl (fun d kv => dinsert d kv.1 kv.2) st)) kv.1
              = some kv.2 := by
            rw [dget_canonize _ _ hndF, hgF]
            simp [htr]
          exact atleast_self sc _ kv.1 kv.2 t hlt htm hgR
      · rw [if_neg hsen]
    · rw [List.all_eq_true]
      intro kv hm
      by_cases hsen : sense kv.1 = true
      · rw [if_pos hsen]
      · rw [if_neg hsen]
        have hmF := List.mem_filter.mp hm
        have htr : kv.2.truthy = true := by simpa using hmF.2
        have hgF : dget (ps.foldl (fun d kv => dinsert d kv.1 kv.2) st) kv.1
            = some kv.2 := mem_dget _ kv.1 kv.2 hndF hmF.1
        cases hg : dget ps kv.1 with
        | some pv =>
          have hpm : (kv.1, pv) ∈ ps := dget_mem ps _ _ hg
          have hvv := hpv _ hpm
          simp only at hvv
          rw [show sense kv.1 = false by
            cases hx : sense kv.1
            · rfl
            · exact absurd hx hsen] at hvv
          have : dget (ps.foldl (fun d kv => dinsert d kv.1 kv.2) st) kv.1
              = some pv := dget_foldl_mem ps st _ _ hndps hpm
          rw [hgF] at this
          injection this with hvv2
          rw [← hvv2] at hvv
          rw [hvv] at htr
          exact absurd htr (by simp [Value.truthy])
        | none =>
          have hgSt : dget st kv.1 = some kv.2 := by
            rw [← dget_foldl_not_mem ps st kv.1 (dget_none_forall ps kv.1 hg)]
            exact hgF
          obtain ⟨_, t, hlt, htm⟩ := hval (kv.1, kv.2)
            (dget_mem st kv.1 kv.2 hgSt)
          exact atleast_self sc st kv.1 kv.2 t hlt htm hgSt
  refine ⟨rfl, ?_, ?_⟩
  · unfold geD
    exact hcontains
  · unfold gtD
    rw [hcontains]
    simp

/-- C3 (witness): the IMPROVE Set `{k: true}` applied to the empty state over
a one-boolean schema, with all hypotheses discharged concretely. -/
theorem improve_set_ge_witness :
    wf scSword [] = true ∧ SortedK ([] : Dict) ∧
    nodupKeys [("sword", Value.vb true)] = true ∧
    (∀ kv ∈ [("sword", Value.vb true)],
      lookupType scSword kv.1 = some QType.tbool) ∧
    setEquiv [("sword", Value.vb true)] = EquivT.improve ∧
    (acall scSword (.aset [("sword", Value.vb true)]) [] =
      some (canonize (([("sword", Value.vb true)]).foldl
        (fun d kv => dinsert d kv.1 kv.2) [])) ∧
    geD scSword (canonize (([("sword", Value.vb true)]).foldl
        (fun d kv => dinsert d kv.1 kv.2) [])) [] = true ∧
    (gtD scSword (canonize (([("sword", Value.vb true)]).foldl
        (fun d kv => dinsert d kv.1 kv.2) [])) [] = true ↔
      canonize (([("sword", Value.vb true)]).foldl
        (fun d kv => dinsert d kv.1 kv.2) []) ≠ ([] : Dict))) :=
  ⟨by decide, by decide, by decide, by decide, by decide,
    improve_set_ge scSword [("sword", Value.vb true)] [] (by decide)
      (by decide) (by decide) (by decide) (by decide)⟩

/-- C4 (counterexample): a four-state run in which the edge `M -> M2` is
recorded while `M2` is not yet an ancestor of `M`, after which a later edge
`P -> M` adds `M2` to `ancestors(M)`; the finished graph holds an edge from a
maximal state into one of its own recorded ancestors. -/
theorem edge_into_ancestor_counterexample :
    (run scMoves [stS0] actsMoves 10000 false 5 10).map edgeIntoAncestor =
      some true ∧
    (run scMoves [stS0] actsMoves 10000 false 5 10).map (fun g =>
      (tget g.states stM).map (fun n =>
        (n.children.map Prod.snd, decide (stM2 ∈ n.ancestors)))) =
      some (some ([stM2], true)) := by decide

/-- C6 (counterexample): with generation limit 1 the run registers the start
maximal in `seenmaxes` and then breaks before the first pop, so the result
list `maxls` stays empty — the maximal does not appear in the result list. -/
theorem limit_one_counterexample :
    (run scFood [stFood] [] 1 false 5 5).map (fun g => (g.maxls, g.seenmaxes)) =
      some ([], {stFood}) := by decide

/-- Table lookup after storing at the same key. -/
theorem tget_tset_self (t : List (Dict × GNode)) (d : Dict) (n : GNode) :
    tget (tset t d n) d = some n := by
  induction t with
  | nil => simp [tset, tget]
  | cons dn rest ih =>
    obtain ⟨d0, n0⟩ := dn
    unfold tset
    by_cases h : d0 = d
    · rw [if_pos h]
      simp [tget]
    · rw [if_neg h]
      unfold tget
      rw [if_neg h]
      exact ih

/-- Table lookup after storing at a different key. -/
theorem tget_tset_ne (t : List (Dict × GNode)) (d d2 : Dict) (n : GNode)
    (h : d ≠ d2) : tget (tset t d n) d2 = tget t d2 := by
  induction t with
  | nil => simp [tset, tget, h]
  | cons dn rest ih =>
    obtain ⟨d0, n0⟩ := dn
    unfold tset
    by_cases h0 : d0 = d
    · rw [if_pos h0]
      simp only [tget]
      rw [if_neg h, if_neg (show ¬d0 = d2 by rw [h0]; exact h)]
    · rw [if_neg h0]
      simp only [tget]
      by_cases h2 : d0 = d2
      · rw [if_pos h2, if_pos h2]
      · rw [if_neg h2, if_neg h2]
        exact ih

/-- What a successful improvement probe means: the returned action is one of
the given ones and produced the returned state. -/
theorem firstImprove_spec (sc : Schema) :
    ∀ (acts : List ActionT) (st : Dict) (a : ActionT) (ns : Dict),
      firstImprove sc acts st = some (a, ns) →
      a ∈ acts ∧ acall sc a st = some ns := by
  intro acts
  induction acts with
  | nil =>
    intro st a ns h
    exact absurd h (by simp [firstImprove])
  | cons a0 rest ih =>
    intro st a ns h
    unfold firstImprove at h
    cases hca : acall sc a0 st with
    | none =>
      simp only [hca] at h
      have hr := ih st a ns h
      exact ⟨List.mem_cons_of_mem _ hr.1, hr.2⟩
    | some ns0 =>
      simp only [hca] at h
      by_cases he : ns0 = st
      · rw [if_pos he] at h
        have hr := ih st a ns h
        exact ⟨List.mem_cons_of_mem _ hr.1, hr.2⟩
      · rw [if_neg he] at h
        by_cases hgt : gtD sc ns0 st = true
        · rw [if_pos hgt] at h
          injection h with hpair
          rw [Prod.mk.injEq] at hpair
          rw [← hpair.1, ← hpair.2]
          exact ⟨List.mem_cons_self _ _, hca⟩
        · rw [if_neg hgt] at h
          have hr := ih st a ns h
          exact ⟨List.mem_cons_of_mem _ hr.1, hr.2⟩

/-- The unlimited increment on a positive int key strictly improves every
state `{n: m}` with `m >= 1` into `{n: m+1}`. -/
theorem increment_step (m : Int) (hm : 1 ≤ m) :
    acall scInc incAct [("n", Value.vi m)] = some [("n", Value.vi (m + 1))] ∧
    [("n", Value.vi (m + 1))] ≠ [("n", Value.vi m)] ∧
    gtD scInc [("n", Value.vi (m + 1))] [("n", Value.vi m)] = true := by
  have h10 : ¬m + 1 = 0 := by omega
  have h0 : ¬m = 0 := by omega
  have hne : ¬m + 1 = m := by omega
  refine ⟨?_, ?_, ?_⟩
  · show some (canonize (dinsert [("n", Value.vi m)] "n"
      (Value.vi ((match dget [("n", Value.vi m)] "n" with
        | some (Value.vi n) => n
        | _ => 0) + 1)))) = _
    simp [dget, dinsert, canonize, Value.truthy, h10]
  · simp [hne]
  · unfold gtD contains
    simp [atleast, dget, lookupType, sense, startsUnderscore, Value.truthy,
      Value.ltv, h0, h10, hne]

/-- The divergence engine of C5: from `{n: m}` (with `m >= 1`) on a table
holding no state `{n: j}` with `j >= m`, the maximization loop runs out of
any fuel. -/
theorem fmLoop_increment_none :
    ∀ (fuel : Nat) (m : Int) (g : GraphSt) (chain : List Dict)
      (achain : List ActionT), 1 ≤ m →
      (∀ j : Int, m ≤ j → tget g.states [("n", Value.vi j)] = none) →
      fmLoop scInc [incAct] fuel g [("n", Value.vi m)] chain achain = none := by
  intro fuel
  induction fuel with
  | zero =>
    intro m g chain achain hm hg
    rfl
  | succ n ih =>
    intro m g chain achain hm hg
    obtain ⟨hca, hne, hgt⟩ := increment_step m hm
    have hfi : firstImprove scInc [incAct] [("n", Value.vi m)] =
        some (incAct, [("n", Value.vi (m + 1))]) := by
      unfold firstImprove
      simp only [hca]
      rw [if_neg hne, if_pos hgt]
    have hkey : [("n", Value.vi m)] ≠ [("n", Value.vi (m + 1))] := by
      have hmm : m ≠ m + 1 := by omega
      simp [hmm]
    have htg : tget (tset g.states [("n", Value.vi m)] GNode.empty)
        [("n", Value.vi (m + 1))] = none := by
      rw [tget_tset_ne _ _ _ _ hkey]
      exact hg (m + 1) (by omega)
    unfold fmLoop
    simp only [hfi, htg]
    exact ih (m + 1) _ _ _ (by omega) (fun j hj => by
      rw [tget_tset_ne _ _ _ _ (by
        have hmj : m ≠ j := by omega
        simp [hmj])]
      exact hg j (by omega))

/-- C5 (counterexample): with the unlimited `Increment('n')` as the only
improvement action, `find_maximal_state` from `{n: 1}` never returns — the
loop fails for every fuel bound; Graph.run's generation limit never
intervenes because it is tested only in the outer loop. -/
theorem find_maximal_divergence_counterexample : incrementDiverges := by
  intro fuel
  exact fmLoop_increment_none fuel 1 emptyGraph [] [] (by omega)
    (fun j hj => rfl)

/-- The maximization loop returns within fuel bounded by the number of
closure states missing from the node table: every iteration installs a fresh
state of the closure. -/
theorem fmLoop_some_of_finite (sc : Schema) (improve : List ActionT)
    (V : Finset Dict)
    (hclosed : ∀ a ∈ improve, ∀ s s2, s ∈ V → acall sc a s = some s2 → s2 ∈ V) :
    ∀ (fuel : Nat) (g : GraphSt) (st : Dict) (chain : List Dict)
      (achain : List ActionT), st ∈ V →
      tget g.states st = none →
      (V.filter (fun d => (tget g.states d).isNone = true)).card ≤ fuel →
      (fmLoop sc improve fuel g st chain achain).isSome = true := by
  intro fuel
  induction fuel with
  | zero =>
    intro g st chain achain hst hnone hcard
    have hmem : st ∈ V.filter (fun d => (tget g.states d).isNone = true) :=
      Finset.mem_filter.mpr ⟨hst, by simp [hnone]⟩
    have := Finset.card_pos.mpr ⟨st, hmem⟩
    omega
  | succ n ih =>
    intro g st chain achain hst hnone hcard
    unfold fmLoop
    cases hfi : firstImprove sc improve st with
    | none => simp
    | some pair =>
      obtain ⟨a, ns⟩ := pair
      cases htg : tget (tset g.states st GNode.empty) ns with
      | some n0 => simp [htg]
      | none =>
        simp only [htg]
        have hspec := firstImprove_spec sc improve st a ns hfi
        have hnsV : ns ∈ V := hclosed a hspec.1 st ns hst hspec.2
        have hfilter :
            V.filter (fun d =>
              (tget (tset g.states st GNode.empty) d).isNone = true) =
            (V.filter (fun d => (tget g.states d).isNone = true)).erase st := by
          ext d
          rw [Finset.mem_filter, Finset.mem_erase, Finset.mem_filter]
          by_cases hd : d = st
          · subst hd
            rw [tget_tset_self]
            simp
          · rw [tget_tset_ne _ _ _ _ (fun he => hd he.symm)]
            constructor
            · rintro ⟨h1, h2⟩
              exact ⟨hd, h1, h2⟩
            · rintro ⟨_, h1, h2⟩
              exact ⟨h1, h2⟩
        have hmem : st ∈ V.filter (fun d => (tget g.states d).isNone = true) :=
          Finset.mem_filter.mpr ⟨hst, by simp [hnone]⟩
        have hcard2 : (V.filter (fun d =>
            (tget (tset g.states st GNode.empty) d).isNone = true)).card ≤ n := by
          rw [hfilter, Finset.card_erase_of_mem hmem]
          have := Finset.card_pos.mpr ⟨st, hmem⟩
          omega
        exact ih _ ns (chain ++ [st]) (achain ++ [a]) hnsV htg hcard2

/-- C5 (amended): `find_maximal_state` returns whenever the input state lies
in a finite set closed under the improvement actions (for instance the state
space of an all-boolean schema), given fuel at least the number of closure
states missing from the node table. -/
theorem find_maximal_returns_of_finite_closure (sc : Schema)
    (improve : List ActionT) (V : Finset Dict) (fuel : Nat) (g : GraphSt)
    (st : Dict) (hst : st ∈ V)
    (hclosed : ∀ a ∈ improve, ∀ s s2, s ∈ V → acall sc a s = some s2 →
      s2 ∈ V)
    (hfuel : (V.filter (fun d => (tget g.states d).isNone = true)).card ≤ fuel) :
    (findMaximal sc improve fuel g st).isSome = true := by
  unfold findMaximal
  cases htg : tget g.states st with
  | some node => simp
  | none =>
    exact fmLoop_some_of_finite sc improve V hclosed fuel g st [] [] hst htg
      hfuel

/-- C5 (witness): the one-state closure of the empty state with no
improvement actions; the walk returns with fuel 1. -/
theorem find_maximal_returns_witness :
    (([] : Dict) ∈ ({[]} : Finset Dict)) ∧
    (∀ a ∈ ([] : List ActionT), ∀ s s2, s ∈ ({[]} : Finset Dict) →
      acall scSword a s = some s2 → s2 ∈ ({[]} : Finset Dict)) ∧
    (({[]} : Finset Dict).filter
      (fun d => (tget emptyGraph.states d).isNone = true)).card ≤ 1 ∧
    (findMaximal scSword [] 1 emptyGraph []).isSome = true :=
  ⟨by decide, by simp, by decide,
    find_maximal_returns_of_finite_closure scSword [] {[]} 1 emptyGraph []
      (by decide) (by simp) (by decide)⟩

/-- Everything stored by `tset` is the new pair or an old one. -/
theorem mem_tset (t : List (Dict × GNode)) (d : Dict) (n : GNode) :
    ∀ y ∈ tset t d n, y = (d, n) ∨ y ∈ t := by
  induction t with
  | nil =>
    intro y hy
    simpa [tset] using hy
  | cons dn rest ih =>
    obtain ⟨d0, n0⟩ := dn
    intro y hy
    unfold tset at hy
    by_cases h : d0 = d
    · rw [if_pos h] at hy
      rcases List.mem_cons.mp hy with h1 | h1
      · exact Or.inl h1
      · exact Or.inr (List.mem_cons_of_mem _ h1)
    · rw [if_neg h] at hy
      rcases List.mem_cons.mp hy with h1 | h1
      · exact Or.inr (by rw [h1]; exact List.mem_cons_self _ _)
      · rcases ih y h1 with h2 | h2
        · exact Or.inl h2
        · exact Or.inr (List.mem_cons_of_mem _ h2)

/-- Everything in a `tmod` result is an old entry or the modified one. -/
theorem mem_tmod (t : List (Dict × GNode)) (d : Dict) (f : GNode → GNode) :
    ∀ y ∈ tmod t d f, y ∈ t ∨ ∃ n0, (d, n0) ∈ t ∧ y = (d, f n0) := by
  induction t with
  | nil =>
    intro y hy
    simpa [tmod] using hy
  | cons dn rest ih =>
    obtain ⟨d0, n0⟩ := dn
    intro y hy
    unfold tmod at hy
    by_cases h : d0 = d
    · rw [if_pos h] at hy
      rcases List.mem_cons.mp hy with h1 | h1
      · subst h
        exact Or.inr ⟨n0, List.mem_cons_self _ _, h1⟩
      · exact Or.inl (List.mem_cons_of_mem _ h1)
    · rw [if_neg h] at hy
      rcases List.mem_cons.mp hy with h1 | h1
      · exact Or.inl (by rw [h1]; exact List.mem_cons_self _ _)
      · rcases ih y h1 with h2 | h2
        · exact Or.inl (List.mem_cons_of_mem _ h2)
        · obtain ⟨n1, hn1, hy1⟩ := h2
          exact Or.inr ⟨n1, List.mem_cons_of_mem _ hn1, hy1⟩

/-- Inserting a fresh node with no children keeps the table self-edge-free. -/
theorem tOK_tset_empty (t : List (Dict × GNode)) (d : Dict)
    (h : tOK t) : tOK (tset t d GNode.empty) := by
  intro dn hdn ct hct
  rcases mem_tset t d GNode.empty dn hdn with h1 | h1
  · rw [h1] at hct
    exact absurd hct (by simp [GNode.empty])
  · exact h dn h1 ct hct

/-- A node mutation that keeps `children` keeps the table self-edge-free. -/
theorem tOK_tmod_pres (t : List (Dict × GNode)) (d : Dict)
    (f : GNode → GNode) (hf : ∀ n, (f n).children = n.children)
    (h : tOK t) : tOK (tmod t d f) := by
  intro dn hdn ct hct
  rcases mem_tmod t d f dn hdn with h1 | h1
  · exact h dn h1 ct hct
  · obtain ⟨n0, hn0, hdn2⟩ := h1
    rw [hdn2] at hct ⊢
    simp only [hf n0] at hct
    exact h (d, n0) hn0 ct hct

/-- Appending an edge whose target differs from the node's own state keeps
the table self-edge-free. -/
theorem tOK_tmod_addchild (t : List (Dict × GNode)) (d : Dict)
    (c : List ActionT) (tgt : Dict) (hne : tgt ≠ d) (h : tOK t) :
    tOK (tmod t d (fun n => { n with children := n.children ++ [(c, tgt)] })) := by
  intro dn hdn ct hct
  rcases mem_tmod t d _ dn hdn with h1 | h1
  · exact h dn h1 ct hct
  · obtain ⟨n0, hn0, hdn2⟩ := h1
    rw [hdn2] at hct ⊢
    simp only [List.mem_append] at hct
    rcases hct with h2 | h2
    · exact h (d, n0) hn0 ct h2
    · rw [List.mem_singleton.mp h2]
      exact hne

/-- The finalize loop of `find_maximal_state` keeps the table
self-edge-free. -/
theorem tOK_finAssign (maxst : Dict) (achain : List ActionT) :
    ∀ (pos : Nat) (chain : List Dict) (t : List (Dict × GNode)),
      tOK t → tOK (finAssign maxst achain pos chain t) := by
  intro pos chain
  induction chain generalizing pos with
  | nil =>
    intro t h
    exact h
  | cons s rest ih =>
    intro t h
    unfold finAssign
    exact ih (pos + 1) _ (tOK_tmod_pres _ _ _ (fun n => rfl) h)

/-- The splice loop of `find_maximal_state` keeps the table
self-edge-free. -/
theorem tOK_splAssign (gotstate : Dict) (achain : List ActionT) :
    ∀ (pos : Nat) (chain : List Dict) (t : List (Dict × GNode)),
      tOK t → tOK (splAssign gotstate achain pos chain t) := by
  intro pos chain
  induction chain generalizing pos with
  | nil =>
    intro t h
    exact h
  | cons s rest ih =>
    intro t h
    unfold splAssign
    exact ih (pos + 1) _ (tOK_tmod_pres _ _ _ (fun n => rfl) h)

/-- The maximization loop keeps the table self-edge-free. -/
theorem tOK_fmLoop (sc : Schema) (improve : List ActionT) :
    ∀ (fuel : Nat) (g : GraphSt) (st : Dict) (chain : List Dict)
      (achain : List ActionT) (g2 : GraphSt) (m : Option Dict),
      fmLoop sc improve fuel g st chain achain = some (g2, m) →
      tOK g.states → tOK g2.states := by
  intro fuel
  induction fuel with
  | zero =>
    intro g st chain achain g2 m h
    exact absurd h (by simp [fmLoop])
  | succ n ih =>
    intro g st chain achain g2 m h hok
    unfold fmLoop at h
    cases hfi : firstImprove sc improve st with
    | none =>
      rw [hfi] at h
      simp only [Option.some.injEq, Prod.mk.injEq] at h
      rw [← h.1]
      exact tOK_tmod_pres _ _ _ (fun n => rfl)
        (tOK_finAssign st achain 0 (chain ++ [st])
          _ (tOK_tset_empty _ _ hok))
    | some pair =>
      rw [hfi] at h
      cases htg : tget (tset g.states st GNode.empty) pair.2 with
      | some n0 =>
        simp only [htg, Option.some.injEq, Prod.mk.injEq] at h
        rw [← h.1]
        exact tOK_splAssign pair.2 (achain ++ [pair.1]) 0 (chain ++ [st])
          _ (tOK_tset_empty _ _ hok)
      | none =>
        simp only [htg] at h
        exact ih _ _ _ _ _ _ h (tOK_tset_empty _ _ hok)

/-- `find_maximal_state` keeps the table self-edge-free. -/
theorem tOK_findMaximal (sc : Schema) (improve : List ActionT) (fuel : Nat)
    (g : GraphSt) (st : Dict) (g2 : GraphSt) (m : Option Dict)
    (h : findMaximal sc improve fuel g st = some (g2, m))
    (hok : tOK g.states) : tOK g2.states := by
  unfold findMaximal at h
  cases htg : tget g.states st with
  | some node =>
    rw [htg] at h
    simp only [Option.some.injEq, Prod.mk.injEq] at h
    rw [← h.1]
    exact hok
  | none =>
    rw [htg] at h
    exact tOK_fmLoop sc improve fuel g st [] [] g2 m h hok

/-- The start-state loop keeps the table self-edge-free. -/
theorem tOK_runSetup (sc : Schema) (improve : List ActionT) (fm : Nat) :
    ∀ (starts : List Dict) (g : GraphSt) (queue : List Dict)
      (g2 : GraphSt) (queue2 : List Dict),
      runSetup sc improve fm starts g queue = some (g2, queue2) →
      tOK g.states → tOK g2.states := by
  intro starts
  induction starts with
  | nil =>
    intro g queue g2 queue2 h hok
    simp only [runSetup, Option.some.injEq, Prod.mk.injEq] at h
    rw [← h.1]
    exact hok
  | cons st rest ih =>
    intro g queue g2 queue2 h hok
    unfold runSetup at h
    cases hfm : findMaximal sc improve fm g st with
    | none =>
      rw [hfm] at h
      exact absurd h (by simp)
    | some pr =>
      obtain ⟨g1, om⟩ := pr
      cases om with
      | none =>
        rw [hfm] at h
        exact absurd h (by simp)
      | some m =>
        rw [hfm] at h
        simp only at h
        have hok1 := tOK_findMaximal sc improve fm g st g1 (some m) hfm hok
        by_cases hmem : m ∈ queue
        · rw [if_pos hmem] at h
          exact ih g1 queue g2 queue2 h hok1
        · rw [if_neg hmem] at h
          exact ih _ _ g2 queue2 h
            (tOK_tmod_pres _ _ _ (fun n => rfl) hok1)

/-- The change-action loop keeps the table self-edge-free: the only edge
append happens after the `maxstate == oldstate` rejection. -/
theorem tOK_runActions (sc : Schema) (improve : List ActionT) (fm : Nat)
    (oldstate : Dict) :
    ∀ (change : List ActionT) (g : GraphSt) (queue : List Dict)
      (g2 : GraphSt) (queue2 : List Dict),
      runActions sc improve fm oldstate change g queue = some (g2, queue2) →
      tOK g.states → tOK g2.states := by
  intro change
  induction change with
  | nil =>
    intro g queue g2 queue2 h hok
    simp only [runActions, Option.some.injEq, Prod.mk.injEq] at h
    rw [← h.1]
    exact hok
  | cons action rest ih =>
    intro g queue g2 queue2 h hok
    unfold runActions at h
    cases hca : acall sc action oldstate with
    | none =>
      simp only [hca] at h
      exact ih g queue g2 queue2 h hok
    | some newstate =>
      simp only [hca] at h
      cases hfm : findMaximal sc improve fm g newstate with
      | none =>
        simp only [hfm] at h
        exact absurd h (by simp)
      | some pr =>
        obtain ⟨g1, om⟩ := pr
        cases om with
        | none =>
          simp only [hfm] at h
          exact absurd h (by simp)
        | some maxstate =>
          simp only [hfm] at h
          have hok1 := tOK_findMaximal sc improve fm g newstate g1
            (some maxstate) hfm hok
          by_cases heq : maxstate = oldstate
          · rw [if_pos heq] at h
            exact ih g1 queue g2 queue2 h hok1
          · rw [if_neg heq] at h
            cases hto : tget g1.states oldstate with
            | none =>
              simp only [hto] at h
              exact absurd h (by simp)
            | some oldnode =>
              simp only [hto] at h
              by_cases hanc : maxstate ∈ oldnode.ancestors
              · rw [if_pos hanc] at h
                exact ih g1 queue g2 queue2 h hok1
              · rw [if_neg hanc] at h
                refine ih _ _ g2 queue2 h ?_
                refine tOK_tmod_pres _ _ _ (fun n => rfl) ?_
                refine tOK_tmod_addchild _ _ _ _ heq ?_
                exact tOK_tmod_pres _ _ _ (fun n => rfl) hok1

/-- The exploration loop keeps the table self-edge-free. -/
theorem tOK_runLoop (sc : Schema) (improve change : List ActionT)
    (limit fm : Nat) :
    ∀ (fuel : Nat) (g : GraphSt) (queue : List Dict) (g2 : GraphSt),
      runLoop sc improve change limit fm fuel g queue = some g2 →
      tOK g.states → tOK g2.states := by
  intro fuel
  induction fuel with
  | zero =>
    intro g queue g2 h hok
    cases queue with
    | nil =>
      simp only [runLoop, Option.some.injEq] at h
      rw [← h]
      exact hok
    | cons m rest => exact absurd h (by simp [runLoop])
  | succ n ih =>
    intro g queue g2 h hok
    cases queue with
    | nil =>
      simp only [runLoop, Option.some.injEq] at h
      rw [← h]
      exact hok
    | cons old rest =>
      unfold runLoop at h
      by_cases hlim : limit ≤ g.seenmaxes.card
      · rw [if_pos hlim] at h
        simp only [Option.some.injEq] at h
        rw [← h]
        exact hok
      · rw [if_neg hlim] at h
        cases hra : runActions sc improve fm old change
            { g with maxls := g.maxls ++ [old] } rest with
        | none =>
          simp only [hra] at h
          exact absurd h (by simp)
        | some pr =>
          obtain ⟨ga, queuea⟩ := pr
          simp only [hra] at h
          exact ih ga queuea g2 h
            (tOK_runActions sc improve fm old change _ rest ga queuea hra hok)

/-- C4 (amended): after any completed `Graph.run`, every recorded edge
`(chain, M2)` in `children(M)` has `M2` different from `M` — the run rejects
no-progress results before recording an edge, and node states never change.
(The stronger ancestor claim fails: `ancestors(M)` can grow after the edge
is recorded, as the counterexample run shows.) -/
theorem run_self_edge_free (sc : Schema) (starts : List Dict)
    (actions : List ActionT) (limit : Nat) (noopt : Bool) (fm fuel : Nat)
    (g : GraphSt) (h : run sc starts actions limit noopt fm fuel = some g) :
    selfEdgeFree g = true := by
  have htok : tOK g.states := by
    simp only [run] at h
    split at h
    · exact absurd h (by simp)
    · rename_i g0 queue heq
      refine tOK_runLoop sc _ _ limit fm fuel g0 queue g h ?_
      refine tOK_runSetup sc _ fm starts emptyGraph [] g0 queue heq ?_
      intro dn hdn
      exact absurd hdn (List.not_mem_nil dn)
  unfold selfEdgeFree
  rw [List.all_eq_true]
  intro dn hdn
  rw [List.all_eq_true]
  intro ct hct
  simp only [decide_eq_true_eq]
  exact htok dn hdn ct hct

/-- C4 (witness): a concrete run returns a graph and the theorem shows it is
free of self-edges. -/
theorem run_self_edge_free_witness :
    (run scFood [stFood] [] 10 false 5 5).isSome = true ∧
    (run scFood [stFood] [] 10 false 5 5).elim False
      (fun g => selfEdgeFree g = true) := by
  refine ⟨rfl, ?_⟩
  cases hrun : run scFood [stFood] [] 10 false 5 5 with
  | none =>
    have hs : (run scFood [stFood] [] 10 false 5 5).isSome = true := rfl
    rw [hrun] at hs
    exact absurd hs (by simp)
  | some g =>
    show selfEdgeFree g = true
    exact run_self_edge_free scFood [stFood] [] 10 false 5 5 g hrun

/-- The maximization walk only touches the node table and the insertion
order: `maxls` and `seenmaxes` come through unchanged. -/
theorem fmLoop_maxls_seen (sc : Schema) (imp : List ActionT) :
    ∀ (fuel : Nat) (g : GraphSt) (st : Dict) (chain : List Dict)
      (achain : List ActionT) (g2 : GraphSt) (m : Option Dict),
      fmLoop sc imp fuel g st chain achain = some (g2, m) →
      g2.maxls = g.maxls ∧ g2.seenmaxes = g.seenmaxes := by
  intro fuel
  induction fuel with
  | zero =>
    intro g st chain achain g2 m h
    exact absurd h (by simp [fmLoop])
  | succ n ih =>
    intro g st chain achain g2 m h
    unfold fmLoop at h
    cases hfi : firstImprove sc imp st with
    | none =>
      rw [hfi] at h
      simp only [Option.some.injEq, Prod.mk.injEq] at h
      rw [← h.1]
      exact ⟨rfl, rfl⟩
    | some pair =>
      rw [hfi] at h
      cases htg : tget (tset g.states st GNode.empty) pair.2 with
      | some n0 =>
        simp only [htg, Option.some.injEq, Prod.mk.injEq] at h
        rw [← h.1]
        exact ⟨rfl, rfl⟩
      | none =>
        simp only [htg] at h
        have hx := ih _ _ _ _ _ _ h
        exact hx

/-- `find_maximal_state` preserves `maxls` and `seenmaxes`. -/
theorem findMaximal_maxls_seen (sc : Schema) (imp : List ActionT)
    (fuel : Nat) (g : GraphSt) (st : Dict) (g2 : GraphSt) (m : Option Dict)
    (h : findMaximal sc imp fuel g st = some (g2, m)) :
    g2.maxls = g.maxls ∧ g2.seenmaxes = g.seenmaxes := by
  unfold findMaximal at h
  cases htg : tget g.states st with
  | some node =>
    rw [htg] at h
    simp only [Option.some.injEq, Prod.mk.injEq] at h
    rw [← h.1]
    exact ⟨rfl, rfl⟩
  | none =>
    rw [htg] at h
    exact fmLoop_maxls_seen sc imp fuel g st [] [] g2 m h

/-- Through the start-state loop, `maxls` is untouched and every queued
maximal is registered in `seenmaxes`. -/
theorem runSetup_invariant (sc : Schema) (imp : List ActionT) (fm : Nat) :
    ∀ (starts : List Dict) (g : GraphSt) (queue : List Dict)
      (g2 : GraphSt) (queue2 : List Dict),
      runSetup sc imp fm starts g queue = some (g2, queue2) →
      (∀ m ∈ queue, m ∈ g.seenmaxes) →
      g2.maxls = g.maxls ∧ ∀ m ∈ queue2, m ∈ g2.seenmaxes := by
  intro starts
  induction starts with
  | nil =>
    intro g queue g2 queue2 h hq
    simp only [runSetup, Option.some.injEq, Prod.mk.injEq] at h
    rw [← h.1, ← h.2]
    exact ⟨rfl, hq⟩
  | cons st rest ih =>
    intro g queue g2 queue2 h hq
    unfold runSetup at h
    cases hfm : findMaximal sc imp fm g st with
    | none => rw [hfm] at h; exact absurd h (by simp)
    | some pr =>
      obtain ⟨g1, om⟩ := pr
      cases om with
      | none => rw [hfm] at h; exact absurd h (by simp)
      | some m =>
        rw [hfm] at h
        simp only at h
        have hpres := findMaximal_maxls_seen sc imp fm g st g1 (some m) hfm
        by_cases hmem : m ∈ queue
        · rw [if_pos hmem] at h
          have := ih g1 queue g2 queue2 h (fun x hx => by
            rw [hpres.2]; exact hq x hx)
          exact ⟨this.1.trans hpres.1, this.2⟩
        · rw [if_neg hmem] at h
          have := ih _ _ g2 queue2 h (fun x hx => by
            rcases List.mem_append.mp hx with hx1 | hx2
            · exact Finset.mem_insert_of_mem (by rw [hpres.2]; exact hq x hx1)
            · rw [List.mem_singleton.mp hx2]; exact Finset.mem_insert_self m _)
          refine ⟨this.1.trans ?_, this.2⟩
          exact hpres.1

/-- With limit 1 the exploration loop breaks at its first test: the queue is
either empty or holds a registered maximal, so `maxls` never grows. -/
theorem runLoop_limit_one (sc : Schema) (imp chg : List ActionT)
    (fm fuel : Nat) (g : GraphSt) (queue : List Dict) (g2 : GraphSt)
    (hq : ∀ m ∈ queue, m ∈ g.seenmaxes)
    (h : runLoop sc imp chg 1 fm fuel g queue = some g2) :
    g2.maxls = g.maxls := by
  cases queue with
  | nil =>
    cases fuel <;>
      (unfold runLoop at h
       simp only [Option.some.injEq] at h
       rw [← h])
  | cons m rest =>
    cases fuel with
    | zero => exact absurd h (by simp [runLoop])
    | succ n =>
      unfold runLoop at h
      have hcard : 1 ≤ g.seenmaxes.card :=
        Finset.card_pos.mpr ⟨m, hq m (List.mem_cons_self m rest)⟩
      rw [if_pos hcard] at h
      simp only [Option.some.injEq] at h
      rw [← h]

/-- C6 (amended): with generation limit 1 the run halts before any state is
appended to the result list: `maxls` is empty after the run (the start
maximal lives only in `seenmaxes`). -/
theorem limit_one_empty_result (sc : Schema) (starts : List Dict)
    (actions : List ActionT) (noopt : Bool) (fm fuel : Nat) (g : GraphSt)
    (h : run sc starts actions 1 noopt fm fuel = some g) : g.maxls = [] := by
  simp only [run] at h
  split at h
  · exact absurd h (by simp)
  · rename_i g0 queue heq
    have hinv := runSetup_invariant sc _ fm starts emptyGraph [] g0 queue heq
      (by intro x hx; exact absurd hx (List.not_mem_nil x))
    have hml := runLoop_limit_one sc _ _ fm fuel g0 queue g hinv.2 h
    rw [hml, hinv.1]
    rfl

/-- C6 (witness): a concrete limit-1 run returns a graph, and the theorem
yields that its result list is empty. -/
theorem limit_one_empty_result_witness :
    (run scSword [stSword] [] 1 false 5 5).isSome = true ∧
    (run scSword [stSword] [] 1 false 5 5).elim False (fun g => g.maxls = []) := by
  refine ⟨rfl, ?_⟩
  cases hrun : run scSword [stSword] [] 1 false 5 5 with
  | none =>
    have hs : (run scSword [stSword] [] 1 false 5 5).isSome = true := rfl
    rw [hrun] at hs
    exact absurd hs (by simp)
  | some g =>
    show g.maxls = []
    exact limit_one_empty_result scSword [stSword] [] false 5 5 g hrun

/-- C7 (counterexample): the mixed all-boolean mapping
`Set(a=True, b=False)` (both keys positive-sense) receives hint LOSS from the
constructor, not UNKNOWN as the claim states. -/
theorem set_hint_mixed_counterexample :
    setEquiv [("a", Value.vb true), ("b", Value.vb false)] = EquivT.loss := by
  decide

/-- C7 (amended): the hint `Set.__init__` computes is IMPROVE iff every value
of the mapping is a boolean agreeing with its key's sense (truthy on positive
sense, falsy on negative sense), LOSS iff every value is a boolean but not
all agree with their senses, and UNKNOWN iff some value is not a boolean. -/
theorem set_hint_classification (params : List (String × Value)) :
    (setEquiv params = EquivT.improve ↔
      (∀ kv ∈ params, kv.2.isBool = true) ∧
      ∀ kv ∈ params, kv.2.truthy = sense kv.1) ∧
    (setEquiv params = EquivT.loss ↔
      (∀ kv ∈ params, kv.2.isBool = true) ∧
      ¬∀ kv ∈ params, kv.2.truthy = sense kv.1) ∧
    (setEquiv params = EquivT.unknown ↔
      ¬∀ kv ∈ params, kv.2.isBool = true) := by
  have hcnt : (params.countP
      (fun kv => (!(startsUnderscore kv.1) && kv.2.truthy) ||
        (startsUnderscore kv.1 && !kv.2.truthy)) = params.length) ↔
      ∀ kv ∈ params, kv.2.truthy = sense kv.1 := by
    rw [List.countP_eq_length]
    refine forall₂_congr (fun kv _ => ?_)
    unfold sense
    cases startsUnderscore kv.1 <;> cases kv.2.truthy <;> simp
  unfold setEquiv
  by_cases h1 : params.all (fun kv => kv.2.isBool) = true
  · rw [if_pos h1]
    rw [List.all_eq_true] at h1
    by_cases h2 : params.countP
        (fun kv => (!(startsUnderscore kv.1) && kv.2.truthy) ||
          (startsUnderscore kv.1 && !kv.2.truthy)) = params.length
    · rw [if_pos h2]
      rw [hcnt] at h2
      exact ⟨⟨fun _ => ⟨h1, h2⟩, fun _ => rfl⟩,
        ⟨fun h => EquivT.noConfusion h, fun h => absurd h2 h.2⟩,
        ⟨fun h => EquivT.noConfusion h, fun h => absurd h1 h⟩⟩
    · rw [if_neg h2]
      rw [hcnt] at h2
      exact ⟨⟨fun h => EquivT.noConfusion h, fun h => absurd h.2 h2⟩,
        ⟨fun _ => ⟨h1, h2⟩, fun _ => rfl⟩,
        ⟨fun h => EquivT.noConfusion h, fun h => absurd h1 h⟩⟩
  · rw [if_neg h1]
    rw [List.all_eq_true] at h1
    exact ⟨⟨fun h => EquivT.noConfusion h, fun h => absurd h.1 h1⟩,
      ⟨fun h => EquivT.noConfusion h, fun h => absurd h.1 h1⟩,
      ⟨fun _ => h1, fun _ => rfl⟩⟩

/-- C8 (code bug): for a set-typed schema key, `State.addquality` executes
`dic.get(key, set()).union(set[val])`; `set[val]` subscripts the builtin
`set` type and raises a TypeError, so the call fails although the key is in
the schema.  The spec's `existing set ∪ {v}` behavior is unreachable. -/
theorem addquality_set_key_type_error :
    addquality [("inv", QType.tset)] [] "inv" (Value.vs "x") =
      Except.error AddErr.typeError := rfl

/-- C9 (counterexample): the empty state is not a minimum of the partial
order as soon as a state carries a negative-sense quality: `State()` is not
`<=` the well-formed state `{_b: True}`; at this instance `State()` is even
strictly above it. -/
theorem empty_state_not_minimum_counterexample :
    wf scNegBool stNegBool = true ∧
    leD scNegBool [] stNegBool = false ∧
    gtD scNegBool [] stNegBool = true := by decide

/-- C9 (amended): over states all of whose qualities are positive-sense, the
empty state `State()` is a minimum: `State() <= S`. -/
theorem empty_state_le_of_positive_keys (sc : Schema) (st : Dict)
    (h : ∀ kv ∈ st, sense kv.1 = true) : leD sc [] st = true := by
  unfold leD contains
  simp only [List.all_nil, Bool.true_and, List.all_eq_true]
  intro kv hkv
  rw [h kv hkv]
  simp

/-- C9 (witness): the start state of the TestScenario has only positive-sense
keys, and the empty state is below it. -/
theorem empty_state_le_witness :
    (∀ kv ∈ stFood, sense kv.1 = true) ∧ leD scFood [] stFood = true :=
  ⟨by decide, empty_state_le_of_positive_keys scFood stFood (by decide)⟩

/-- C10 (confirmed): `Has` with an empty mapping returns every state
unchanged (its constraint loop is vacuous), while `HasAny` with an empty
mapping falls through its loop and returns bottom for every state. -/
theorem has_empty_vs_hasany_empty (sc : Schema) (st : Dict) :
    acall sc (.ahas []) st = some st ∧ acall sc (.ahasany []) st = none :=
  ⟨rfl, rfl⟩

end Plotex
